import Mathlib

/-!
# amp-optimizer: dependency extraction and ordering

A shallow embedding of `src/index.js`:

* `deriveObjectName` and `parseAST` over the syntax tree that `acorn.parse` returns,
* `containsAll` and `buildList`, the greedy ordering loop,
* `writeOutputFile`, the value handed to `fs.writeFile`.

JavaScript strings are Lean strings; a JavaScript array is a list; `undefined` is `none`;
a thrown `TypeError` is `none` in the result of `parseAST`.
-/

namespace AmpOptimizer

/-! ## Plain objects used as maps -/

/-- The property names every plain object inherits from `Object.prototype`. Their values are
functions (or, for `__proto__`, the prototype object), hence truthy. -/
def objectPrototypeKeys : List String :=
  ["constructor", "__defineGetter__", "__defineSetter__", "hasOwnProperty",
   "__lookupGetter__", "__lookupSetter__", "isPrototypeOf", "propertyIsEnumerable",
   "toString", "valueOf", "__proto__", "toLocaleString"]

/-- Truthiness of a JavaScript string: only the empty string is falsy. -/
def truthyString (s : String) : Bool := s != ""

/-- Truthiness of `resolved[key]` where `resolved = _.keyBy(exported)`: the object has, for
each string of `exported`, an own property named by the string and holding the string; a
key that is not an own property is looked up on `Object.prototype`. -/
def keyByIdentityTruthy (exported : List String) (key : String) : Bool :=
  if exported.contains key then truthyString key else objectPrototypeKeys.contains key

/-- Truthiness of `exported[key]` where `exported = _.keyBy(exportList, o => o.file)`: the
own properties hold record objects, which are truthy; a key that is not an own property is
looked up on `Object.prototype`. -/
def keyByFileTruthy (ownKeys : List String) (key : String) : Bool :=
  if ownKeys.contains key then true else objectPrototypeKeys.contains key

/-! ## Records -/

/-- The object `parseFiles` resolves for each file:
`{file, contents, dependencies, declarations}`. -/
structure SourceRecord where
  file : String
  contents : String
  dependencies : List String
  declarations : List String
  deriving DecidableEq, Repr

/-! ## `containsAll` and `buildList` -/

/-- Source `containsAll(exportList, dependencies)`: `exported` is the flat list of the
declarations of `exportList`, `resolved = _.keyBy(exported)`, and the result is whether no
dependency `dep` has `!resolved[dep]`. -/
def containsAll (exportList : List SourceRecord) (dependencies : List String) : Bool :=
  let exported := exportList.flatMap (fun item => item.declarations)
  let remainingDependencies :=
    dependencies.filter (fun dep => !keyByIdentityTruthy exported dep)
  remainingDependencies.length == 0

/-- The files of `files` not yet exported: `_.filter(files, o => !exported[o.file])` with
`exported = _.keyBy(exportList, o => o.file)`. -/
def remainingFiles (files exportList : List SourceRecord) : List SourceRecord :=
  files.filter (fun o => !keyByFileTruthy (exportList.map (fun o => o.file)) o.file)

/-- The `while (attempts < limit)` loop of `buildList`; the first argument is the number of
attempts left, `limit - attempts`. One attempt: stop when nothing remains; otherwise the
`for` loop pushes the first remaining file whose dependencies are all contained and breaks. -/
def buildListLoop (files : List SourceRecord) : Nat → List SourceRecord → List SourceRecord
  | 0, exportList => exportList
  | left + 1, exportList =>
    let remaining := remainingFiles files exportList
    if remaining.length = 0 then exportList
    else
      match remaining.find? (fun r => containsAll exportList r.dependencies) with
      | some r => buildListLoop files left (exportList ++ [r])
      | none => buildListLoop files left exportList

/-- Source `buildList(files)`: `limit = files.length * 2`, `exportList = []`. -/
def buildList (files : List SourceRecord) : List SourceRecord :=
  buildListLoop files (files.length * 2) []

/-! ## Syntax trees -/

/-- The nodes of the tree `acorn.parse` returns, as far as `parseAST` reads them. The
constructor is the node's `type`; `Other` is a node of any other type (a literal, `this`,
an object literal, a binary expression, a pattern, an `if` statement, ...), none of whose
fields are read. A `FunctionExpression` carries the statements `body.body`. -/
inductive Node where
  | Identifier (name : String)
  | MemberExpression (object : Node) (property : Node) (computed : Bool)
  | CallExpression (callee : Node) (arguments : List Node)
  | NewExpression (callee : Node) (arguments : List Node)
  | FunctionExpression (params : List Node) (body : List Node)
  | AssignmentExpression (operator : String) (left : Node) (right : Node)
  | ExpressionStatement (expression : Node)
  | VariableDeclarator (id : Node) (init : Option Node)
  | VariableDeclaration (kind : String) (declarations : List Node)
  | Other

namespace Node

/-- The value of `node.name`: a string on an identifier, `undefined` elsewhere. -/
def name : Node → Option String
  | Identifier n => some n
  | _ => none

/-- Source `nodeType('MemberExpression')`. -/
def isMemberExpression : Node → Bool
  | MemberExpression _ _ _ => true
  | _ => false

/-- Source `nodeType('FunctionExpression')`. -/
def isFunctionExpression : Node → Bool
  | FunctionExpression _ _ => true
  | _ => false

/-- Source `nodeType('ExpressionStatement')`. -/
def isExpressionStatement : Node → Bool
  | ExpressionStatement _ => true
  | _ => false

/-- Source `nodeType('VariableDeclarator')`. -/
def isVariableDeclarator : Node → Bool
  | VariableDeclarator _ _ => true
  | _ => false

/-- Source `nodeType('VariableDeclaration')`. -/
def isVariableDeclaration : Node → Bool
  | VariableDeclaration _ _ => true
  | _ => false

end Node

/-- What string concatenation makes of a value that is a string or `undefined`. -/
def jsString : Option String → String
  | some s => s
  | none => "undefined"

/-- Source `deriveObjectName(node)`: a node without `object` gives `node.name`; a member
expression gives `deriveObjectName(node.object) + '.' + node.property.name`. -/
def deriveObjectName : Node → Option String
  | Node.MemberExpression object property _ =>
    some (jsString (deriveObjectName object) ++ "." ++ jsString property.name)
  | Node.Identifier n => some n
  | _ => none

/-! ## `String.prototype.replace` with a string pattern -/

/-- The replacement text for a match of a string pattern (no capture groups): in the
template `$$` stands for `$`, `$&` for the matched text, `$` followed by a backtick for the
text before the match, `$` followed by an apostrophe for the text after it; every other
character, a `$` before anything else included, stands for itself. -/
def getSubstitution (matched before after : List Char) : List Char → List Char
  | [] => []
  | c :: d :: rest =>
    if c = '$' ∧ d = '$' then '$' :: getSubstitution matched before after rest
    else if c = '$' ∧ d = '&' then matched ++ getSubstitution matched before after rest
    else if c = '$' ∧ d = Char.ofNat 96 then before ++ getSubstitution matched before after rest
    else if c = '$' ∧ d = Char.ofNat 39 then after ++ getSubstitution matched before after rest
    else c :: getSubstitution matched before after (d :: rest)
  | [c] => [c]

/-- Scan for the first occurrence of `pattern`; `before` is the text already passed. -/
def replaceFrom (pattern template : List Char) (before : List Char) :
    List Char → List Char
  | [] =>
    if pattern = [] then before ++ getSubstitution pattern before [] template else before
  | c :: cs =>
    if pattern.isPrefixOf (c :: cs) then
      before ++ getSubstitution pattern before ((c :: cs).drop pattern.length) template
        ++ (c :: cs).drop pattern.length
    else replaceFrom pattern template (before ++ [c]) cs

/-- JavaScript `s.replace(pattern, replacement)` for a string `pattern`: the first
occurrence is replaced by the expansion of `replacement`; without an occurrence `s` is
returned. -/
def jsReplace (s pattern replacement : String) : String :=
  String.mk (replaceFrom pattern.toList replacement.toList [] s.toList)

/-- Whether a replacement template has a `$` followed by `$`, `&`, a backtick or an
apostrophe, the pairs that `getSubstitution` expands. -/
def hasReplacementPattern : List Char → Bool
  | [] => false
  | c :: rest =>
    (c == '$' && (rest.head? == some '$' || rest.head? == some '&' ||
      rest.head? == some (Char.ofNat 96) || rest.head? == some (Char.ofNat 39)))
      || hasReplacementPattern rest

/-! ## `parseAST` -/

/-- The value `parseAST` returns (its `setters` field is always the empty array). -/
structure Parsed where
  dependencies : List String
  declarations : List String
  deriving DecidableEq, Repr

/-- The first two stages shared by both chains of `parseAST`: the top-level
`VariableDeclaration` statements and, flattened, their `VariableDeclarator` entries. -/
def topLevelDeclarators (body : List Node) : List Node :=
  (body.filter Node.isVariableDeclaration).flatMap (fun node =>
    match node with
    | Node.VariableDeclaration _ declarations => declarations.filter Node.isVariableDeclarator
    | _ => [])

/-- The third stage: the declarators with `node.id.name == namespace`. -/
def namespaceDeclarators (body : List Node) (namespace_ : String) : List Node :=
  (topLevelDeclarators body).filter (fun node =>
    match node with
    | Node.VariableDeclarator id _ => decide (id.name = some namespace_)
    | _ => false)

/-- A stage of a chain whose callback may throw, run over the elements in order: the first
throw aborts the chain. -/
def mapThrowing {β : Type} (f : Node → Option β) : List Node → Option (List β)
  | [] => some []
  | node :: rest =>
    match f node with
    | none => none
    | some b => (mapThrowing f rest).map (fun bs => b :: bs)

/-- The value of `node.init.arguments.filter(nodeType('MemberExpression'))` on a declarator;
`none` when it throws: `init` is `null`, or `init` has no `arguments`. -/
def memberArguments : Node → Option (List Node)
  | Node.VariableDeclarator _ (some (Node.CallExpression _ arguments)) =>
    some (arguments.filter Node.isMemberExpression)
  | Node.VariableDeclarator _ (some (Node.NewExpression _ arguments)) =>
    some (arguments.filter Node.isMemberExpression)
  | _ => none

/-- The `dependencies` chain of `parseAST`. -/
def parseDependencies (body : List Node) (namespace_ : String) : Option (List String) :=
  (mapThrowing memberArguments (namespaceDeclarators body namespace_)).map (fun lists =>
    lists.flatten.map (fun node => jsString (deriveObjectName node)))

/-- The value of `node.init.callee` on a declarator; `none` when `init` is `null` (the read
throws) or has no `callee` (the next stage then reads `type` of `undefined` and throws). -/
def initCallee : Node → Option Node
  | Node.VariableDeclarator _ (some (Node.CallExpression callee _)) => some callee
  | Node.VariableDeclarator _ (some (Node.NewExpression callee _)) => some callee
  | _ => none

/-- The statements `node.body.body.filter(nodeType('ExpressionStatement'))` of a factory. -/
def factoryStatements : Node → List Node
  | Node.FunctionExpression _ body => body.filter Node.isExpressionStatement
  | _ => []

/-- The filter `node.expression.type == 'AssignmentExpression' &&
node.expression.left.type == 'MemberExpression'`. -/
def isMemberAssignment : Node → Bool
  | Node.ExpressionStatement (Node.AssignmentExpression _ left _) => left.isMemberExpression
  | _ => false

/-- The value `deriveObjectName(node.expression.left)` of an assignment statement. -/
def assignedName : Node → String
  | Node.ExpressionStatement (Node.AssignmentExpression _ left _) =>
    jsString (deriveObjectName left)
  | _ => "undefined"

/-- The `declarations` chain of `parseAST`. -/
def parseDeclarations (body : List Node) (namespace_ : String) : Option (List String) :=
  (mapThrowing initCallee (namespaceDeclarators body namespace_)).map (fun callees =>
    ((((callees.filter Node.isFunctionExpression).flatMap factoryStatements).filter
      isMemberAssignment).map assignedName).map (fun property =>
        jsReplace property "module" namespace_))

/-- Source `parseAST(contents, namespace)` on the tree `ast = acorn.parse(contents)` with
`ast.body = body`; `none` is a thrown `TypeError`. -/
def parseAST (body : List Node) (namespace_ : String) : Option Parsed :=
  match parseDependencies body namespace_ with
  | none => none
  | some dependencies =>
    match parseDeclarations body namespace_ with
    | none => none
    | some declarations => some ⟨dependencies, declarations⟩

/-! ## `writeOutputFile` -/

/-- Source `writeOutputFile`: the second argument of `fs.writeFile`,
`_.map(organizedFileList, 'contents')`, an array of strings. -/
def writeOutputFileData (organizedFileList : List SourceRecord) : List String :=
  organizedFileList.map (fun o => o.contents)

/-- What `fs.writeFile` of the Node versions before 14 writes for data that is not a
buffer: the string `'' + data`; for an array that is `Array.prototype.join`, the elements
separated by a comma. -/
def arrayToString (data : List String) : String :=
  ",".intercalate data

/-- The text `writeOutputFile` leaves in the output file. -/
def writtenText (organizedFileList : List SourceRecord) : String :=
  arrayToString (writeOutputFileData organizedFileList)

/-! ## Vocabulary of the statements -/

/-- A dotted name: a string with a `.` in it, as `deriveObjectName` builds for every member
expression. -/
def isDotted (s : String) : Prop := '.' ∈ s.toList

instance (s : String) : Decidable (isDotted s) := by unfold isDotted; infer_instance

/-- A key whose lookup in a plain object is decided by the own properties alone and whose
own string value is truthy: not empty and not a property name of `Object.prototype`. -/
def isPlainKey (s : String) : Prop := s ≠ "" ∧ s ∉ objectPrototypeKeys

instance (s : String) : Decidable (isPlainKey s) := by unfold isPlainKey; infer_instance

/-- Every dependency of the record at a position is declared by a record at a strictly
earlier position of the same list. -/
def DeclaredBeforeUse (l : List SourceRecord) : Prop :=
  ∀ (i : Nat) (r : SourceRecord), l[i]? = some r → ∀ d ∈ r.dependencies,
    ∃ (j : Nat) (s : SourceRecord), j < i ∧ l[j]? = some s ∧ d ∈ s.declarations

/-- One pass of the loop body of `buildList` on a given `exportList`, without the early
exit: the first remaining file whose dependencies are all contained is appended. -/
def attempt (files exportList : List SourceRecord) : List SourceRecord :=
  match (remainingFiles files exportList).find?
      (fun r => containsAll exportList r.dependencies) with
  | some r => exportList ++ [r]
  | none => exportList

/-- The first record in input order, among the input records whose file path is not a path
of `placed`, whose dependencies are all among the declarations of `placed`. -/
def firstEligible (files placed : List SourceRecord) : Option SourceRecord :=
  (files.filter (fun o => decide (o.file ∉ placed.map (fun p => p.file)))).find?
    (fun r => decide (∀ d ∈ r.dependencies, d ∈ placed.flatMap (fun p => p.declarations)))

/-! ## Sample inputs -/

/-- A file without dependencies that declares `NS.Foo`. -/
def fileA : SourceRecord := ⟨"src\\a.js", "A;", [], ["NS.Foo"]⟩

/-- A file that depends on `NS.Foo` and declares `NS.Bar`. -/
def fileB : SourceRecord := ⟨"src\\b.js", "B;", ["NS.Foo"], ["NS.Bar"]⟩

/-- A file that depends on `NS.Missing`, which no file declares. -/
def fileC : SourceRecord := ⟨"src\\c.js", "C;", ["NS.Missing"], []⟩

/-- One half of a cycle: declares `NS.A`, depends on `NS.B`. -/
def cycleA : SourceRecord := ⟨"src\\cycleA.js", "A;", ["NS.B"], ["NS.A"]⟩

/-- The other half of the cycle: declares `NS.B`, depends on `NS.A`. -/
def cycleB : SourceRecord := ⟨"src\\cycleB.js", "B;", ["NS.A"], ["NS.B"]⟩

/-- A record whose dependency is spelled like a property of `Object.prototype`. -/
def fileT : SourceRecord := ⟨"src\\t.js", "T;", ["toString"], []⟩

/-- A record whose file path is spelled like a property of `Object.prototype`. -/
def fileK : SourceRecord := ⟨"constructor", "K;", [], []⟩

/-- A record that declares the empty name. -/
def fileE : SourceRecord := ⟨"src\\e.js", "E;", [], [""]⟩

/-- A record that depends on the empty name. -/
def fileF : SourceRecord := ⟨"src\\f.js", "F;", [""], []⟩

/-! ## Vocabulary of the extraction statements -/

/-- The expression `id0.id1. ... .idn`: a chain of non-computed member accesses on the
identifier `id0`, nested to the left as the parser builds it. -/
def memberChain (id0 : String) (ids : List String) : Node :=
  ids.foldl (fun object id => Node.MemberExpression object (Node.Identifier id) false)
    (Node.Identifier id0)

/-- The dotted names of those nodes of an argument list that are member expressions, in
argument order; every other argument contributes nothing. -/
def dottedNames : List Node → List String
  | [] => []
  | Node.MemberExpression object property computed :: rest =>
    jsString (deriveObjectName (Node.MemberExpression object property computed))
      :: dottedNames rest
  | _ :: rest => dottedNames rest

/-- Whether a declarator has the shape `<id> = <callee>(<arguments>)`. -/
def isCallInitialised : Node → Bool
  | Node.VariableDeclarator _ (some (Node.CallExpression _ _)) => true
  | _ => false

/-- The arguments of the call that initialises a declarator. -/
def callArguments : Node → List Node
  | Node.VariableDeclarator _ (some (Node.CallExpression _ arguments)) => arguments
  | _ => []

/-- The statement `<object>.<property> = <right>;`. -/
def assignStatement (object property : String) (right : Node) : Node :=
  Node.ExpressionStatement (Node.AssignmentExpression "="
    (Node.MemberExpression (Node.Identifier object) (Node.Identifier property) false) right)

/-- The program `var <ns> = (function (<param>) { <param>.Foo = <other>; })(<other>);`. -/
def moduleProgram (ns param : String) : List Node :=
  [Node.VariableDeclaration "var"
    [Node.VariableDeclarator (Node.Identifier ns)
      (some (Node.CallExpression
        (Node.FunctionExpression [Node.Identifier param]
          [assignStatement param "Foo" Node.Other])
        [Node.Other]))]]

/-- The program `var x = 1; var NS = f(NS.A.B, y, 2, NS.A.B, g(), NS.C);`. -/
def dependencyProgram : List Node :=
  [Node.VariableDeclaration "var" [Node.VariableDeclarator (Node.Identifier "x")
      (some Node.Other)],
   Node.VariableDeclaration "var" [Node.VariableDeclarator (Node.Identifier "NS")
      (some (Node.CallExpression (Node.Identifier "f")
        [memberChain "NS" ["A", "B"], Node.Identifier "y", Node.Other,
         memberChain "NS" ["A", "B"], Node.CallExpression (Node.Identifier "g") [],
         memberChain "NS" ["C"]]))]]

/-- The program `var x = f(a.b); x.y = 1;`, without a declarator named `NS`. -/
def plainProgram : List Node :=
  [Node.VariableDeclaration "var" [Node.VariableDeclarator (Node.Identifier "x")
      (some (Node.CallExpression (Node.Identifier "f") [memberChain "a" ["b"]]))],
   assignStatement "x" "y" Node.Other]

/-! ## Vocabulary of the later statements -/

/-- The loop with the precise halting rule, as a relation between the `exportList` a run
starts from and the list it returns: a pass over the remaining files that places none
ends the run; a pass that places a record is followed by the run from the longer list. -/
inductive PreciseRun (files : List SourceRecord) :
    List SourceRecord → List SourceRecord → Prop where
  | halt (exportList : List SourceRecord) :
      (remainingFiles files exportList).find?
        (fun r => containsAll exportList r.dependencies) = none →
      PreciseRun files exportList exportList
  | place (exportList : List SourceRecord) (r : SourceRecord) (result : List SourceRecord) :
      (remainingFiles files exportList).find?
        (fun r => containsAll exportList r.dependencies) = some r →
      PreciseRun files (exportList ++ [r]) result →
      PreciseRun files exportList result

/-- A record without dependencies that declares `NS.Foo`, under a file path spelled like a
property of `Object.prototype`. -/
def fileAK : SourceRecord := ⟨"constructor", "A;", [], ["NS.Foo"]⟩

/-- Whether the initialiser of a declarator is a node with `arguments`: a call or a `new`
expression. -/
def hasArguments : Option Node → Bool
  | some (Node.CallExpression _ _) => true
  | some (Node.NewExpression _ _) => true
  | _ => false

/-- The program `var NS;`. -/
def bareProgram : List Node :=
  [Node.VariableDeclaration "var" [Node.VariableDeclarator (Node.Identifier "NS") none]]

/-- The program `var NS = {};` (also `var NS = NS || {};`: an initialiser whose node is
neither a call nor a `new` expression). -/
def objectProgram : List Node :=
  [Node.VariableDeclaration "var"
    [Node.VariableDeclarator (Node.Identifier "NS") (some Node.Other)]]

/-- The program
`var NS = (function (module) { window.x = <expr>; module.Foo = <expr>; })(<expr>);`. -/
def windowProgram : List Node :=
  [Node.VariableDeclaration "var"
    [Node.VariableDeclarator (Node.Identifier "NS")
      (some (Node.CallExpression
        (Node.FunctionExpression [Node.Identifier "module"]
          [assignStatement "window" "x" Node.Other,
           assignStatement "module" "Foo" Node.Other])
        [Node.Other]))]]

/-- The node `left` is the left-hand side of a top-level assignment statement in the body
of a factory: a function expression that is the callee of the call (or `new`) expression
initialising a top-level declarator of `body` whose name is the namespace. -/
def IsFactoryAssignmentTarget (body : List Node) (namespace_ : String) (left : Node) : Prop :=
  ∃ (kind : String) (ds : List Node) (id : Node) (init : Option Node)
    (params factoryBody arguments : List Node) (operator : String) (right : Node),
    Node.VariableDeclaration kind ds ∈ body ∧ Node.VariableDeclarator id init ∈ ds ∧
    id.name = some namespace_ ∧
    (init = some (Node.CallExpression (Node.FunctionExpression params factoryBody) arguments) ∨
      init = some (Node.NewExpression (Node.FunctionExpression params factoryBody) arguments)) ∧
    Node.ExpressionStatement (Node.AssignmentExpression operator left right) ∈ factoryBody

/-! ## The lookups on plain keys -/

theorem not_prototype_of_isDotted {s : String} (h : isDotted s) :
    s ∉ objectPrototypeKeys := by
  intro hs
  have hall : ∀ k ∈ objectPrototypeKeys, ¬ isDotted k := by decide
  exact hall s hs h

theorem ne_empty_of_isDotted {s : String} (h : isDotted s) : s ≠ "" := by
  rintro rfl
  exact absurd h (by decide)

theorem isPlainKey_of_isDotted {s : String} (h : isDotted s) : isPlainKey s :=
  ⟨ne_empty_of_isDotted h, not_prototype_of_isDotted h⟩

theorem keyByIdentityTruthy_mem {exported : List String} {key : String}
    (hk : key ∉ objectPrototypeKeys) (h : keyByIdentityTruthy exported key = true) :
    key ∈ exported := by
  unfold keyByIdentityTruthy at h
  by_cases hc : exported.contains key = true
  · simpa using hc
  · simp only [hc] at h
    simp at h
    exact absurd h hk

theorem keyByIdentityTruthy_of_mem {exported : List String} {key : String}
    (hk : key ≠ "") (h : key ∈ exported) : keyByIdentityTruthy exported key = true := by
  unfold keyByIdentityTruthy truthyString
  have hc : exported.contains key = true := by simpa using h
  rw [if_pos hc]
  simpa using hk

theorem keyByFileTruthy_iff {ownKeys : List String} {key : String}
    (hk : key ∉ objectPrototypeKeys) : keyByFileTruthy ownKeys key = true ↔ key ∈ ownKeys := by
  unfold keyByFileTruthy
  by_cases hc : ownKeys.contains key = true
  · have : key ∈ ownKeys := by simpa using hc
    simp [hc, this]
  · have : key ∉ ownKeys := by simpa using hc
    simp [this, hk]

theorem keyByFileTruthy_of_mem {ownKeys : List String} {key : String}
    (h : key ∈ ownKeys) : keyByFileTruthy ownKeys key = true := by
  unfold keyByFileTruthy
  have hc : ownKeys.contains key = true := by simpa using h
  rw [if_pos hc]

theorem containsAll_iff (exportList : List SourceRecord) (dependencies : List String) :
    containsAll exportList dependencies = true ↔
      ∀ d ∈ dependencies,
        keyByIdentityTruthy (exportList.flatMap (fun item => item.declarations)) d = true := by
  unfold containsAll
  simp [List.filter_eq_nil_iff]

theorem containsAll_declared {exportList : List SourceRecord} {dependencies : List String}
    (h : containsAll exportList dependencies = true) {d : String} (hd : d ∈ dependencies)
    (hk : d ∉ objectPrototypeKeys) : ∃ s ∈ exportList, d ∈ s.declarations := by
  have := keyByIdentityTruthy_mem hk ((containsAll_iff _ _).1 h d hd)
  simpa [List.mem_flatMap] using this

theorem mem_remainingFiles {files exportList : List SourceRecord} {r : SourceRecord}
    (h : r ∈ remainingFiles files exportList) :
    r ∈ files ∧ r.file ∉ exportList.map (fun o => o.file) := by
  unfold remainingFiles at h
  rw [List.mem_filter] at h
  refine ⟨h.1, fun hm => ?_⟩
  have := keyByFileTruthy_of_mem hm
  simp [this] at h

/-! ## The loop as iterated attempts -/

theorem attempt_eq_self_of_remaining_nil {files exportList : List SourceRecord}
    (h : remainingFiles files exportList = []) : attempt files exportList = exportList := by
  simp [attempt, h]

theorem buildListLoop_succ (files : List SourceRecord) (n : Nat) (e : List SourceRecord) :
    buildListLoop files (n + 1) e =
      if (remainingFiles files e).length = 0 then e
      else buildListLoop files n (attempt files e) := by
  rw [buildListLoop]
  by_cases h : (remainingFiles files e).length = 0
  · simp [h]
  · simp only [h, if_false]
    unfold attempt
    cases (remainingFiles files e).find? (fun r => containsAll e r.dependencies) <;> rfl

theorem buildListLoop_fixed {files : List SourceRecord} {e : List SourceRecord}
    (h : attempt files e = e) (n : Nat) : buildListLoop files n e = e := by
  induction n with
  | zero => rfl
  | succ n ih =>
    rw [buildListLoop_succ]
    split
    · rfl
    · rw [h, ih]

theorem buildListLoop_eq_iterate (files : List SourceRecord) (n : Nat)
    (e : List SourceRecord) : buildListLoop files n e = (attempt files)^[n] e := by
  induction n generalizing e with
  | zero => rfl
  | succ n ih =>
    rw [buildListLoop_succ, Function.iterate_succ_apply]
    split
    · next h =>
      have hfix : attempt files e = e :=
        attempt_eq_self_of_remaining_nil (List.length_eq_zero.1 h)
      rw [hfix, Function.iterate_fixed hfix]
    · exact ih _

theorem buildListLoop_succ_eq (files : List SourceRecord) (n : Nat) :
    buildListLoop files (n + 1) [] = attempt files (buildListLoop files n []) := by
  rw [buildListLoop_eq_iterate, buildListLoop_eq_iterate, Function.iterate_succ_apply']

theorem attempt_cases (files e : List SourceRecord) :
    attempt files e = e ∨
      ∃ r, attempt files e = e ++ [r] ∧ r ∈ remainingFiles files e ∧
        containsAll e r.dependencies = true ∧
        (remainingFiles files e).find? (fun r => containsAll e r.dependencies) = some r := by
  unfold attempt
  cases h : (remainingFiles files e).find? (fun r => containsAll e r.dependencies) with
  | none => exact Or.inl rfl
  | some r =>
    exact Or.inr ⟨r, rfl, List.mem_of_find?_eq_some h,
      @List.find?_some _ (fun (r : SourceRecord) => containsAll e r.dependencies) _ _ h, rfl⟩

/-! ## Invariants of the loop -/

theorem attempt_mem_files {files e : List SourceRecord} (h : ∀ r ∈ e, r ∈ files) :
    ∀ r ∈ attempt files e, r ∈ files := by
  rcases attempt_cases files e with h1 | ⟨x, h1, hx, _, _⟩
  · rw [h1]; exact h
  · rw [h1]
    intro r hr
    rcases List.mem_append.1 hr with hr | hr
    · exact h r hr
    · rw [List.mem_singleton] at hr
      subst hr
      exact (mem_remainingFiles hx).1

theorem attempt_nodup {files e : List SourceRecord}
    (h : (e.map (fun o => o.file)).Nodup) :
    ((attempt files e).map (fun o => o.file)).Nodup := by
  rcases attempt_cases files e with h1 | ⟨x, h1, hx, _, _⟩
  · rw [h1]; exact h
  · rw [h1, List.map_append, List.map_singleton]
    refine List.Nodup.append h (List.nodup_singleton _) ?_
    intro a ha hb
    rw [List.mem_singleton] at hb
    subst hb
    exact (mem_remainingFiles hx).2 ha

theorem attempt_length_le (files e : List SourceRecord) :
    (attempt files e).length ≤ e.length + 1 := by
  rcases attempt_cases files e with h1 | ⟨x, h1, _⟩ <;> rw [h1] <;> simp

theorem attempt_extends (files e : List SourceRecord) : e <+: attempt files e := by
  rcases attempt_cases files e with h1 | ⟨x, h1, _⟩ <;> rw [h1]
  exact List.prefix_append _ _

theorem loop_mem_files (files : List SourceRecord) (k : Nat) :
    ∀ r ∈ buildListLoop files k [], r ∈ files := by
  induction k with
  | zero => intro r hr; simp [buildListLoop] at hr
  | succ k ih => rw [buildListLoop_succ_eq]; exact attempt_mem_files ih

theorem loop_nodup (files : List SourceRecord) (k : Nat) :
    ((buildListLoop files k []).map (fun o => o.file)).Nodup := by
  induction k with
  | zero => simp [buildListLoop]
  | succ k ih => rw [buildListLoop_succ_eq]; exact attempt_nodup ih

theorem loop_length_le_files (files : List SourceRecord) (k : Nat) :
    (buildListLoop files k []).length ≤ files.length := by
  have h1 : (buildListLoop files k []).map (fun o => o.file) ⊆
      files.map (fun o => o.file) := by
    intro a ha
    rw [List.mem_map] at ha ⊢
    obtain ⟨r, hr, rfl⟩ := ha
    exact ⟨r, loop_mem_files files k r hr, rfl⟩
  have := (List.subperm_of_subset (loop_nodup files k) h1).length_le
  simpa using this

theorem loop_extends_succ (files : List SourceRecord) (k : Nat) :
    buildListLoop files k [] <+: buildListLoop files (k + 1) [] := by
  rw [buildListLoop_succ_eq]; exact attempt_extends _ _

theorem loop_extends (files : List SourceRecord) {k m : Nat} (h : k ≤ m) :
    buildListLoop files k [] <+: buildListLoop files m [] := by
  induction m with
  | zero =>
    have : k = 0 := by omega
    subst this
    exact List.prefix_refl _
  | succ m ih =>
    rcases Nat.lt_or_ge k (m + 1) with hk | hk
    · exact (ih (by omega)).trans (loop_extends_succ files m)
    · have : k = m + 1 := by omega
      subst this
      exact List.prefix_refl _

theorem loop_stuck (files : List SourceRecord) {k : Nat}
    (h : attempt files (buildListLoop files k []) = buildListLoop files k []) (j : Nat) :
    buildListLoop files (k + j) [] = buildListLoop files k [] := by
  induction j with
  | zero => rfl
  | succ j ih => rw [← Nat.add_assoc, buildListLoop_succ_eq, ih, h]

theorem loop_length_or_stuck (files : List SourceRecord) (k : Nat) :
    (buildListLoop files k []).length = k ∨
      attempt files (buildListLoop files k []) = buildListLoop files k [] := by
  induction k with
  | zero => left; rfl
  | succ k ih =>
    rcases ih with ih | ih
    · rcases attempt_cases files (buildListLoop files k []) with h1 | ⟨x, h1, _⟩
      · right
        rw [buildListLoop_succ_eq, h1, h1]
      · left
        rw [buildListLoop_succ_eq, h1]
        simp [ih]
    · right
      rw [buildListLoop_succ_eq, ih, ih]

/-- The list `buildList` returns is a fixed point of the loop body: no remaining file has
all of its dependencies contained. -/
theorem attempt_buildList (files : List SourceRecord) :
    attempt files (buildList files) = buildList files := by
  rcases loop_length_or_stuck files (files.length * 2) with h | h
  · have hle := loop_length_le_files files (files.length * 2)
    have h0 : files.length = 0 := by omega
    have hnil : files = [] := List.length_eq_zero.1 h0
    subst hnil
    rfl
  · exact h

theorem loop_eq_take (files : List SourceRecord) (k : Nat) :
    buildListLoop files k [] = (buildList files).take k := by
  have hfix := attempt_buildList files
  unfold buildList at hfix ⊢
  have hlen : ∀ n, (buildListLoop files n []).length ≤ n := by
    intro n
    induction n with
    | zero => simp [buildListLoop]
    | succ n ih =>
      rw [buildListLoop_succ_eq]
      exact (attempt_length_le _ _).trans (by omega)
  rcases Nat.le_total k (files.length * 2) with hk | hk
  · rcases loop_length_or_stuck files k with h | h
    · have hp := List.prefix_iff_eq_take.1 (loop_extends files hk)
      rw [h] at hp
      exact hp
    · have hs := loop_stuck files h (files.length * 2 - k)
      rw [show k + (files.length * 2 - k) = files.length * 2 by omega] at hs
      rw [hs, List.take_of_length_le]
      exact hlen k
  · have hs := loop_stuck files hfix (k - files.length * 2)
    rw [show files.length * 2 + (k - files.length * 2) = k by omega] at hs
    rw [hs, List.take_of_length_le]
    exact (hlen _).trans hk

/-- The attempt that fills position `i`: run on the first `i` records of the output, the
scan of the remaining files finds the record at position `i`. -/
theorem find_at_position {files : List SourceRecord} {i : Nat} {r : SourceRecord}
    (h : (buildList files)[i]? = some r) :
    (remainingFiles files ((buildList files).take i)).find?
      (fun x => containsAll ((buildList files).take i) x.dependencies) = some r := by
  obtain ⟨hi, hr⟩ := List.getElem?_eq_some.1 h
  have h1 : (buildList files).take (i + 1) = (buildList files).take i ++ [r] := by
    rw [List.take_succ, h]; rfl
  have h2 : attempt files ((buildList files).take i) = (buildList files).take (i + 1) := by
    rw [← loop_eq_take, ← loop_eq_take, buildListLoop_succ_eq]
  rcases attempt_cases files ((buildList files).take i) with h3 | ⟨x, h3, _, _, h4⟩
  · rw [h2, h1] at h3
    have := congrArg List.length h3
    simp at this
  · rw [h2, h1] at h3
    have hx : r = x := by
      have := List.append_cancel_left h3
      simpa using this
    rw [hx]
    exact h4

/-! ## Order of the output -/

theorem declared_before_of_plain {files : List SourceRecord} {i : Nat} {r : SourceRecord}
    (hr : (buildList files)[i]? = some r) {d : String} (hd : d ∈ r.dependencies)
    (hk : d ∉ objectPrototypeKeys) :
    ∃ (j : Nat) (s : SourceRecord),
      j < i ∧ (buildList files)[j]? = some s ∧ d ∈ s.declarations := by
  have hfind := find_at_position hr
  have hall := @List.find?_some _
    (fun (x : SourceRecord) => containsAll ((buildList files).take i) x.dependencies) _ _ hfind
  obtain ⟨s, hs, hds⟩ := containsAll_declared hall hd hk
  obtain ⟨j, hj⟩ := List.mem_iff_getElem?.1 hs
  rw [List.getElem?_take] at hj
  by_cases hji : j < i
  · rw [if_pos hji] at hj
    exact ⟨j, s, hji, hj, hds⟩
  · rw [if_neg hji] at hj
    exact absurd hj (by simp)

theorem buildList_declaredBeforeUse {files : List SourceRecord}
    (h : ∀ r ∈ files, ∀ d ∈ r.dependencies, d ∉ objectPrototypeKeys) :
    DeclaredBeforeUse (buildList files) := by
  intro i r hr d hd
  have hmem : r ∈ buildList files := List.mem_iff_getElem?.2 ⟨i, hr⟩
  exact declared_before_of_plain hr hd (h r (loop_mem_files files _ r hmem) d hd)

/-- C1. Order validity: for every input list and every record `r` at position `i` of
`buildList files`, every dotted name in `r.dependencies` occurs in the declarations of some
record at a position `j < i` of the same output list. -/
theorem buildList_order_valid (files : List SourceRecord) (i : Nat) (r : SourceRecord)
    (hr : (buildList files)[i]? = some r) (d : String) (hd : d ∈ r.dependencies)
    (hdot : isDotted d) :
    ∃ (j : Nat) (s : SourceRecord),
      j < i ∧ (buildList files)[j]? = some s ∧ d ∈ s.declarations :=
  declared_before_of_plain hr hd (not_prototype_of_isDotted hdot)

/-- Witness of C1: in the output for `[fileB, fileA]` the record at position 1 is `fileB`,
and its dependency `NS.Foo` is declared at an earlier position. -/
theorem buildList_order_valid_witness :
    (buildList [fileB, fileA])[1]? = some fileB ∧ "NS.Foo" ∈ fileB.dependencies ∧
      isDotted "NS.Foo" ∧
      ∃ (j : Nat) (s : SourceRecord),
        j < 1 ∧ (buildList [fileB, fileA])[j]? = some s ∧ "NS.Foo" ∈ s.declarations :=
  ⟨by decide, by decide, by decide,
    buildList_order_valid [fileB, fileA] 1 fileB (by decide) "NS.Foo" (by decide)
      (by decide)⟩

/-- C10. The output is a selection of the input: every record of `buildList files` is one
of the input records, no file path occurs at two positions of the output, and the output is
never longer than the input. -/
theorem buildList_selection (files : List SourceRecord) :
    (∀ r ∈ buildList files, r ∈ files) ∧
      ((buildList files).map (fun o => o.file)).Nodup ∧
      (buildList files).length ≤ files.length :=
  ⟨loop_mem_files files _, loop_nodup files _, loop_length_le_files files _⟩

/-! ## The scan on plain keys -/

theorem find_congr_on {α : Type} {p q : α → Bool} {l : List α}
    (h : ∀ x ∈ l, p x = q x) : l.find? p = l.find? q := by
  induction l with
  | nil => rfl
  | cons a l ih =>
    have ha : p a = q a := h a (List.mem_cons_self a l)
    have hl : ∀ x ∈ l, p x = q x := fun x hx => h x (List.mem_cons_of_mem a hx)
    simp only [List.find?_cons, ha, ih hl]

theorem remainingFiles_eq_filter {files : List SourceRecord}
    (hfile : ∀ r ∈ files, r.file ∉ objectPrototypeKeys) (e : List SourceRecord) :
    remainingFiles files e =
      files.filter (fun o => decide (o.file ∉ e.map (fun p => p.file))) := by
  unfold remainingFiles
  apply List.filter_congr
  intro x hx
  have := @keyByFileTruthy_iff (e.map (fun o => o.file)) _ (hfile x hx)
  by_cases hm : x.file ∈ e.map (fun o => o.file)
  · rw [this.2 hm]; simp [hm]
  · have hf : keyByFileTruthy (e.map (fun o => o.file)) x.file = false := by
      rw [Bool.eq_false_iff]; exact fun hc => hm (this.1 hc)
    rw [hf]; simp [hm]

theorem containsAll_eq_decide {e : List SourceRecord} {deps : List String}
    (hdep : ∀ d ∈ deps, isPlainKey d) :
    containsAll e deps =
      decide (∀ d ∈ deps, d ∈ e.flatMap (fun p => p.declarations)) := by
  rw [Bool.eq_iff_iff, containsAll_iff, decide_eq_true_iff]
  constructor
  · intro h d hd
    exact keyByIdentityTruthy_mem (hdep d hd).2 (h d hd)
  · intro h d hd
    exact keyByIdentityTruthy_of_mem (hdep d hd).1 (h d hd)

theorem find_eq_firstEligible {files : List SourceRecord}
    (hfile : ∀ r ∈ files, r.file ∉ objectPrototypeKeys)
    (hdep : ∀ r ∈ files, ∀ d ∈ r.dependencies, isPlainKey d) (e : List SourceRecord) :
    (remainingFiles files e).find? (fun x => containsAll e x.dependencies) =
      firstEligible files e := by
  unfold firstEligible
  rw [remainingFiles_eq_filter hfile]
  apply find_congr_on
  intro x hx
  exact containsAll_eq_decide (hdep x (List.mem_filter.1 hx).1)

/-- C5, as amended. For every input list whose file paths are no property names of
`Object.prototype` and whose dependency names are plain keys (both hold of every record
`parseFiles` builds), the record at position `i` of the output is the first record in input
order, among the input records whose file path is not among output positions `0..i-1`,
whose dependencies are all contained in the declarations of the records at output positions
`0..i-1`; and the loop run for `k` attempts has placed exactly the first `k` records of the
output, all of them once `k` exceeds its length: an attempt places at most one record. -/
theorem buildList_tie_break (files : List SourceRecord)
    (hfile : ∀ r ∈ files, r.file ∉ objectPrototypeKeys)
    (hdep : ∀ r ∈ files, ∀ d ∈ r.dependencies, isPlainKey d) :
    (∀ (i : Nat) (r : SourceRecord), (buildList files)[i]? = some r →
        firstEligible files ((buildList files).take i) = some r) ∧
      ∀ k : Nat, buildListLoop files k [] = (buildList files).take k := by
  refine ⟨fun i r hr => ?_, loop_eq_take files⟩
  rw [← find_eq_firstEligible hfile hdep]
  exact find_at_position hr

/-- Witness of C5 as amended, on the input `[fileB, fileC, fileA]`. -/
theorem buildList_tie_break_witness :
    (∀ r ∈ [fileB, fileC, fileA], r.file ∉ objectPrototypeKeys) ∧
      (∀ r ∈ [fileB, fileC, fileA], ∀ d ∈ r.dependencies, isPlainKey d) ∧
      (∀ (i : Nat) (r : SourceRecord), (buildList [fileB, fileC, fileA])[i]? = some r →
        firstEligible [fileB, fileC, fileA] ((buildList [fileB, fileC, fileA]).take i)
          = some r) ∧
      ∀ k : Nat, buildListLoop [fileB, fileC, fileA] k [] =
        (buildList [fileB, fileC, fileA]).take k :=
  ⟨by decide, by decide,
    buildList_tie_break [fileB, fileC, fileA] (by decide) (by decide)⟩

/-- Counterexample to C5 as stated. On `[fileC]` the first attempt places no record, so
not every attempt places exactly one. On `[fileT]` position 0 holds `fileT`, although its
dependency `toString` is in no declaration: no record is eligible in the sense of the
claim. -/
theorem buildList_tie_break_counterexample :
    (buildListLoop [fileC] 1 []).length ≠ (buildListLoop [fileC] 0 []).length + 1 ∧
      (buildList [fileT])[0]? = some fileT ∧
      firstEligible [fileT] ((buildList [fileT]).take 0) = none := by
  decide

/-! ## Completeness and the unresolved records -/

theorem find_none_buildList (files : List SourceRecord) :
    (remainingFiles files (buildList files)).find?
      (fun x => containsAll (buildList files) x.dependencies) = none := by
  have hfix := attempt_buildList files
  rcases attempt_cases files (buildList files) with _ | ⟨x, h1, _⟩
  · cases hf : (remainingFiles files (buildList files)).find?
        (fun x => containsAll (buildList files) x.dependencies) with
    | none => rfl
    | some y =>
      unfold attempt at hfix
      rw [hf] at hfix
      have := congrArg List.length hfix
      simp at this
  · rw [hfix] at h1
    have := congrArg List.length h1
    simp at this

theorem mem_buildList_of_contained {files : List SourceRecord}
    (hpaths : (files.map (fun o => o.file)).Nodup)
    (hfile : ∀ r ∈ files, r.file ∉ objectPrototypeKeys) {r : SourceRecord} (hr : r ∈ files)
    (hc : containsAll (buildList files) r.dependencies = true) : r ∈ buildList files := by
  have hnone := List.find?_eq_none.1 (find_none_buildList files)
  have hnot : r ∉ remainingFiles files (buildList files) := fun hm => hnone r hm hc
  rw [remainingFiles_eq_filter hfile, List.mem_filter] at hnot
  have hin : r.file ∈ (buildList files).map (fun p => p.file) := by
    by_contra hcon
    exact hnot ⟨hr, by simpa using hcon⟩
  obtain ⟨o, ho, hof⟩ := List.mem_map.1 hin
  have hofiles : o ∈ files := loop_mem_files files _ o ho
  have : o = r := List.inj_on_of_nodup_map hpaths hofiles hr hof
  rw [← this]
  exact ho

/-- C2, as amended. Completeness: for every input list with pairwise distinct file paths,
none of them a property name of `Object.prototype`, and without an empty dependency name,
for which some arrangement of all the records has every dependency declared by an earlier
record, `buildList` returns a list of the same length as the input that contains every
input record. -/
theorem buildList_complete (files : List SourceRecord)
    (hpaths : (files.map (fun o => o.file)).Nodup)
    (hsat : ∃ l : List SourceRecord, l.Perm files ∧ DeclaredBeforeUse l)
    (hfile : ∀ r ∈ files, r.file ∉ objectPrototypeKeys)
    (hdep : ∀ r ∈ files, "" ∉ r.dependencies) :
    (buildList files).length = files.length ∧ ∀ r ∈ files, r ∈ buildList files := by
  obtain ⟨l, hperm, hvalid⟩ := hsat
  have key : ∀ (i : Nat) (r : SourceRecord), l[i]? = some r → r ∈ buildList files := by
    intro i
    induction i using Nat.strong_induction_on with
    | _ i ih =>
      intro r hr
      have hrl : r ∈ l := List.mem_iff_getElem?.2 ⟨i, hr⟩
      have hrf : r ∈ files := hperm.mem_iff.1 hrl
      apply mem_buildList_of_contained hpaths hfile hrf
      rw [containsAll_iff]
      intro d hd
      obtain ⟨j, s, hj, hs, hds⟩ := hvalid i r hr d hd
      apply keyByIdentityTruthy_of_mem
      · rintro rfl
        exact hdep r hrf hd
      · exact List.mem_flatMap.2 ⟨s, ih j hj s hs, hds⟩
  have hall : ∀ r ∈ files, r ∈ buildList files := by
    intro r hr
    obtain ⟨i, hi⟩ := List.mem_iff_getElem?.1 (hperm.mem_iff.2 hr)
    exact key i r hi
  refine ⟨?_, hall⟩
  have hn1 : (buildList files).Nodup := List.Nodup.of_map _ (loop_nodup files _)
  have hn2 : files.Nodup := List.Nodup.of_map _ hpaths
  have hp : (buildList files).Perm files :=
    (List.perm_ext_iff_of_nodup hn1 hn2).2
      (fun a => ⟨loop_mem_files files _ a, hall a⟩)
  exact hp.length_eq

theorem declaredBeforeUse_pair :
    DeclaredBeforeUse [fileA, fileB] := by
  intro i r hr d hd
  match i, hr with
  | 0, hr =>
    simp at hr
    subst hr
    simp [fileA] at hd
  | 1, hr =>
    simp at hr
    subst hr
    simp [fileB] at hd
    subst hd
    exact ⟨0, fileA, by omega, rfl, by decide⟩
  | n + 2, hr => simp at hr

/-- Witness of C2 as amended: the input `[fileB, fileA]`, whose arrangement
`[fileA, fileB]` declares before use. -/
theorem buildList_complete_witness :
    ([fileB, fileA].map (fun o => o.file)).Nodup ∧
      (∃ l : List SourceRecord, l.Perm [fileB, fileA] ∧ DeclaredBeforeUse l) ∧
      (∀ r ∈ [fileB, fileA], r.file ∉ objectPrototypeKeys) ∧
      (∀ r ∈ [fileB, fileA], "" ∉ r.dependencies) ∧
      (buildList [fileB, fileA]).length = [fileB, fileA].length ∧
      ∀ r ∈ [fileB, fileA], r ∈ buildList [fileB, fileA] :=
  ⟨by decide, ⟨[fileA, fileB], List.Perm.swap _ _ _, declaredBeforeUse_pair⟩, by decide,
    by decide,
    buildList_complete [fileB, fileA] (by decide)
      ⟨[fileA, fileB], List.Perm.swap _ _ _, declaredBeforeUse_pair⟩ (by decide)
      (by decide)⟩

theorem declaredBeforeUse_single_K : DeclaredBeforeUse [fileK] := by
  intro i r hr d hd
  match i, hr with
  | 0, hr =>
    simp at hr
    subst hr
    simp [fileK] at hd
  | n + 1, hr => simp at hr

theorem declaredBeforeUse_pair_E : DeclaredBeforeUse [fileE, fileF] := by
  intro i r hr d hd
  match i, hr with
  | 0, hr =>
    simp at hr
    subst hr
    simp [fileE] at hd
  | 1, hr =>
    simp at hr
    subst hr
    simp [fileF] at hd
    subst hd
    exact ⟨0, fileE, by omega, rfl, by decide⟩
  | n + 2, hr => simp at hr

/-- Counterexample to C2 as stated. The one-record input `[fileK]` has distinct paths and
declares before use, yet its record is dropped; so is `fileF` of `[fileE, fileF]`, whose
dependency, the empty name, `fileE` declares. -/
theorem buildList_complete_counterexample :
    (([fileK].map (fun o => o.file)).Nodup ∧ DeclaredBeforeUse [fileK] ∧
        (buildList [fileK]).length ≠ [fileK].length) ∧
      (([fileE, fileF].map (fun o => o.file)).Nodup ∧ DeclaredBeforeUse [fileE, fileF] ∧
        (buildList [fileE, fileF]).length ≠ [fileE, fileF].length) :=
  ⟨⟨by decide, declaredBeforeUse_single_K, by decide⟩,
    ⟨by decide, declaredBeforeUse_pair_E, by decide⟩⟩

/-! ## Unsatisfiable input -/

theorem nil_of_declaredBeforeUse_of_dependent {files l : List SourceRecord}
    (hdeps : ∀ x ∈ files, x.dependencies ≠ []) (hsub : ∀ x ∈ l, x ∈ files)
    (hvalid : DeclaredBeforeUse l) : l = [] := by
  have key : ∀ (i : Nat) (r : SourceRecord), l[i]? = some r → False := by
    intro i
    induction i using Nat.strong_induction_on with
    | _ i ih =>
      intro r hr
      have hrl : r ∈ l := List.mem_iff_getElem?.2 ⟨i, hr⟩
      obtain ⟨d, hd⟩ := List.exists_mem_of_ne_nil _ (hdeps r (hsub r hrl))
      obtain ⟨j, s, hj, hs, _⟩ := hvalid i r hr d hd
      exact ih j hj s hs
  cases l with
  | nil => rfl
  | cons a t => exact (key 0 a (by simp)).elim

/-- What the loop does with a record it cannot resolve. When a record of the input can be
in no arrangement of input records that declares every dependency before its use (a cycle,
or a name no record declares; names being dotted), the list `buildList` returns has no such
record and is strictly shorter than the input: the record is dropped without a report. -/
theorem buildList_omits_unsatisfiable (files : List SourceRecord) (r : SourceRecord)
    (hr : r ∈ files) (hdot : ∀ x ∈ files, ∀ d ∈ x.dependencies, isDotted d)
    (hunsat : ¬ ∃ l : List SourceRecord,
      (∀ x ∈ l, x ∈ files) ∧ DeclaredBeforeUse l ∧ r ∈ l) :
    r ∉ buildList files ∧ (buildList files).length < files.length := by
  have hnot : r ∉ buildList files := fun hm =>
    hunsat ⟨buildList files, loop_mem_files files _,
      buildList_declaredBeforeUse (fun x hx d hd => not_prototype_of_isDotted (hdot x hx d hd)),
      hm⟩
  refine ⟨hnot, ?_⟩
  have hn1 : (buildList files).Nodup := List.Nodup.of_map _ (loop_nodup files _)
  have hsub : buildList files ⊆ files.erase r := by
    intro x hx
    have hne : x ≠ r := fun h => hnot (h ▸ hx)
    exact (List.mem_erase_of_ne hne).2 (loop_mem_files files _ x hx)
  have hle := (List.subperm_of_subset hn1 hsub).length_le
  rw [List.length_erase_of_mem hr] at hle
  have hpos : 0 < files.length := List.length_pos_of_mem hr
  omega

/-- An instance of the dropped record: the two-record cycle. -/
theorem buildList_omits_unsatisfiable_witness :
    cycleA ∈ [cycleA, cycleB] ∧
      (∀ x ∈ [cycleA, cycleB], ∀ d ∈ x.dependencies, isDotted d) ∧
      (¬ ∃ l : List SourceRecord,
        (∀ x ∈ l, x ∈ [cycleA, cycleB]) ∧ DeclaredBeforeUse l ∧ cycleA ∈ l) ∧
      cycleA ∉ buildList [cycleA, cycleB] ∧
      (buildList [cycleA, cycleB]).length < [cycleA, cycleB].length :=
  have hunsat : ¬ ∃ l : List SourceRecord,
      (∀ x ∈ l, x ∈ [cycleA, cycleB]) ∧ DeclaredBeforeUse l ∧ cycleA ∈ l := by
    rintro ⟨l, hsub, hvalid, hmem⟩
    have hnil := @nil_of_declaredBeforeUse_of_dependent [cycleA, cycleB] l
      (by decide) hsub hvalid
    rw [hnil] at hmem
    simp at hmem
  ⟨by decide, by decide, hunsat,
    buildList_omits_unsatisfiable [cycleA, cycleB] cycleA (by decide) (by decide) hunsat⟩

/-- C3, on the code. Unsatisfiable input is not reported: for the cycle of `cycleA` and
`cycleB` the loop runs out of attempts and `buildList` returns the empty list, and for
`[fileA, fileC]`, where `NS.Missing` is declared by no record, it returns the partial list
`[fileA]`, which omits `fileC`. A list is returned in both cases and no failure is
signalled, against the comment on the attempt limit, which is there to catch circular
references. -/
theorem buildList_unsatisfiable_silent :
    buildList [cycleA, cycleB] = [] ∧ buildList [fileA, fileC] = [fileA] := by
  decide

/-! ## Extraction -/

theorem deriveObjectName_foldl (ids : List String) (object : Node) (acc : String)
    (h : deriveObjectName object = some acc) :
    deriveObjectName
        (ids.foldl (fun object id => Node.MemberExpression object (Node.Identifier id) false)
          object) = some (String.intercalate.go acc "." ids) := by
  induction ids generalizing object acc with
  | nil => simpa [String.intercalate.go] using h
  | cons id ids ih =>
    rw [List.foldl_cons, String.intercalate.go]
    apply ih
    simp [deriveObjectName, h, jsString, Node.name]

theorem memberChain_isMember (id0 : String) (ids : List String) (h : ids ≠ []) :
    (memberChain id0 ids).isMemberExpression = true := by
  unfold memberChain
  rcases List.eq_nil_or_concat ids with h0 | ⟨init, last, rfl⟩
  · exact absurd h0 h
  · rw [List.concat_eq_append, List.foldl_append]; rfl

/-- C6. Dotted-path extraction: for the chained, non-computed member access
`id0.id1. ... .idn` with `n ≥ 1`, `deriveObjectName` returns the single string that joins
`id0, id1, ..., idn` with `.`, object first; and as the argument of the namespace's call it
is one entry of `parseAST`'s dependencies, not several segments. -/
theorem deriveObjectName_memberChain (id0 : String) (ids : List String) (hn : ids ≠ [])
    (ns : String) (callee : Node) :
    deriveObjectName (memberChain id0 ids) = some (".".intercalate (id0 :: ids)) ∧
      (parseAST [Node.VariableDeclaration "var" [Node.VariableDeclarator (Node.Identifier ns)
          (some (Node.CallExpression callee [memberChain id0 ids]))]] ns).map
        (fun res => res.dependencies) = some [".".intercalate (id0 :: ids)] := by
  have h1 : deriveObjectName (memberChain id0 ids) = some (".".intercalate (id0 :: ids)) :=
    deriveObjectName_foldl ids (Node.Identifier id0) id0 rfl
  refine ⟨h1, ?_⟩
  have h2 := memberChain_isMember id0 ids hn
  simp [parseAST, parseDependencies, parseDeclarations, namespaceDeclarators,
    topLevelDeclarators, Node.isVariableDeclaration, Node.isVariableDeclarator, Node.name,
    memberArguments, initCallee, h2, h1, jsString, mapThrowing]

/-- Witness of C6: the expression `NS.Group.Item`. -/
theorem deriveObjectName_memberChain_witness :
    ["Group", "Item"] ≠ [] ∧
      deriveObjectName (memberChain "NS" ["Group", "Item"]) = some "NS.Group.Item" ∧
      (parseAST [Node.VariableDeclaration "var" [Node.VariableDeclarator
          (Node.Identifier "NS") (some (Node.CallExpression (Node.Identifier "f")
            [memberChain "NS" ["Group", "Item"]]))]] "NS").map
        (fun res => res.dependencies) = some ["NS.Group.Item"] :=
  ⟨by decide,
    deriveObjectName_memberChain "NS" ["Group", "Item"] (by decide) "NS"
      (Node.Identifier "f")⟩

/-! ## The chains of `parseAST` -/

theorem mapThrowing_eq_some_map {β : Type} {f : Node → Option β} {g : Node → β}
    {l : List Node} (h : ∀ node ∈ l, f node = some (g node)) :
    mapThrowing f l = some (l.map g) := by
  induction l with
  | nil => rfl
  | cons a l ih =>
    have ha := h a (List.mem_cons_self a l)
    have hl := ih (fun node hn => h node (List.mem_cons_of_mem a hn))
    simp [mapThrowing, ha, hl]

theorem mapThrowing_mem {β : Type} {f : Node → Option β} {l : List Node} {bs : List β}
    (h : mapThrowing f l = some bs) {a : Node} (ha : a ∈ l) : ∃ b ∈ bs, f a = some b := by
  induction l generalizing bs with
  | nil => simp at ha
  | cons x l ih =>
    unfold mapThrowing at h
    cases hx : f x with
    | none => simp [hx] at h
    | some b =>
      simp only [hx] at h
      cases hl : mapThrowing f l with
      | none => simp [hl] at h
      | some bs0 =>
        simp only [hl, Option.map_some'] at h
        have hbs : b :: bs0 = bs := Option.some.inj h
        subst hbs
        rcases List.mem_cons.1 ha with rfl | ha
        · exact ⟨b, List.mem_cons_self _ _, hx⟩
        · obtain ⟨b0, hb0, hf⟩ := ih hl ha
          exact ⟨b0, List.mem_cons_of_mem _ hb0, hf⟩

theorem dottedNames_eq (arguments : List Node) :
    dottedNames arguments =
      (arguments.filter Node.isMemberExpression).map
        (fun node => jsString (deriveObjectName node)) := by
  induction arguments with
  | nil => rfl
  | cons a rest ih =>
    cases a <;> simp [dottedNames, Node.isMemberExpression, ih]

theorem memberArguments_of_call {node : Node} (h : isCallInitialised node = true) :
    memberArguments node = some ((callArguments node).filter Node.isMemberExpression) := by
  unfold isCallInitialised at h
  split at h
  · rfl
  · exact absurd h (by simp)

theorem initCallee_of_call {node : Node} (h : isCallInitialised node = true) :
    ∃ callee, initCallee node = some callee := by
  unfold isCallInitialised at h
  split at h
  · exact ⟨_, rfl⟩
  · exact absurd h (by simp)

/-- C8. Dependencies are exactly the member-access arguments: when every top-level
declarator that matches the namespace has the shape `NS = <call>`, `parseAST` returns, and
its dependencies are, declarator by declarator, the dotted names of those arguments of the
call that are member expressions, in argument order with duplicates kept; an argument that
is no member expression contributes nothing. -/
theorem parseAST_dependencies (body : List Node) (ns : String)
    (hcall : ∀ node ∈ namespaceDeclarators body ns, isCallInitialised node = true) :
    ∃ res, parseAST body ns = some res ∧
      res.dependencies =
        (namespaceDeclarators body ns).flatMap (fun node => dottedNames (callArguments node)) := by
  have h1 : mapThrowing memberArguments (namespaceDeclarators body ns) =
      some ((namespaceDeclarators body ns).map
        (fun node => (callArguments node).filter Node.isMemberExpression)) :=
    mapThrowing_eq_some_map (fun node hn => memberArguments_of_call (hcall node hn))
  have h2 : ∃ callees, mapThrowing initCallee (namespaceDeclarators body ns) = some callees := by
    have hsome : ∀ node ∈ namespaceDeclarators body ns,
        initCallee node = some ((initCallee node).getD Node.Other) := by
      intro node hn
      obtain ⟨c, hc⟩ := initCallee_of_call (hcall node hn)
      rw [hc]; rfl
    exact ⟨_, mapThrowing_eq_some_map hsome⟩
  obtain ⟨callees, h2⟩ := h2
  have hp : ∃ decls, parseAST body ns =
      some ⟨(((namespaceDeclarators body ns).map
        (fun node => (callArguments node).filter Node.isMemberExpression)).flatten).map
          (fun node => jsString (deriveObjectName node)), decls⟩ :=
    ⟨_, by simp only [parseAST, parseDependencies, parseDeclarations, h1, h2,
      Option.map_some']; rfl⟩
  obtain ⟨decls, hp⟩ := hp
  refine ⟨_, hp, ?_⟩
  show List.map _ _ = _
  induction namespaceDeclarators body ns with
  | nil => rfl
  | cons a l ih =>
    simp only [List.map_cons, List.flatten_cons, List.map_append, List.flatMap_cons, ih,
      dottedNames_eq]

/-- Witness of C8: `var x = 1; var NS = f(NS.A.B, y, 2, NS.A.B, g(), NS.C);`. -/
theorem parseAST_dependencies_witness :
    (∀ node ∈ namespaceDeclarators dependencyProgram "NS", isCallInitialised node = true) ∧
      parseAST dependencyProgram "NS" = some ⟨["NS.A.B", "NS.A.B", "NS.C"], []⟩ ∧
      ∃ res, parseAST dependencyProgram "NS" = some res ∧
        res.dependencies =
          (namespaceDeclarators dependencyProgram "NS").flatMap
            (fun node => dottedNames (callArguments node)) :=
  ⟨by decide, by decide, parseAST_dependencies dependencyProgram "NS" (by decide)⟩

theorem namespaceDeclarators_eq_nil {body : List Node} {ns : String}
    (h : ∀ (kind : String) (ds : List Node), Node.VariableDeclaration kind ds ∈ body →
      ∀ (id : Node) (init : Option Node), Node.VariableDeclarator id init ∈ ds →
        id.name ≠ some ns) :
    namespaceDeclarators body ns = [] := by
  unfold namespaceDeclarators
  rw [List.filter_eq_nil_iff]
  intro node hnode
  unfold topLevelDeclarators at hnode
  obtain ⟨stmt, hstmt, hmem⟩ := List.mem_flatMap.1 hnode
  have hbody : stmt ∈ body := (List.mem_filter.1 hstmt).1
  cases stmt with
  | VariableDeclaration kind ds =>
    have hds : node ∈ ds := (List.mem_filter.1 hmem).1
    cases node with
    | VariableDeclarator id init => simpa using h kind ds hbody id init hds
    | _ => simp
  | _ => simp at hmem

/-- C9. A file without the module pattern is a valid empty record: for every namespace and
every program that has no top-level variable declarator whose name equals the namespace,
`parseAST` returns, and both its dependencies and its declarations are the empty list. -/
theorem parseAST_no_namespace (body : List Node) (ns : String)
    (h : ∀ (kind : String) (ds : List Node), Node.VariableDeclaration kind ds ∈ body →
      ∀ (id : Node) (init : Option Node), Node.VariableDeclarator id init ∈ ds →
        id.name ≠ some ns) :
    parseAST body ns = some ⟨[], []⟩ := by
  simp [parseAST, parseDependencies, parseDeclarations, namespaceDeclarators_eq_nil h,
    mapThrowing]

/-- Witness of C9: `var x = f(a.b); x.y = 1;` read for the namespace `NS`. -/
theorem parseAST_no_namespace_witness :
    (∀ (kind : String) (ds : List Node), Node.VariableDeclaration kind ds ∈ plainProgram →
      ∀ (id : Node) (init : Option Node), Node.VariableDeclarator id init ∈ ds →
        id.name ≠ some "NS") ∧
      parseAST plainProgram "NS" = some ⟨[], []⟩ :=
  have h : ∀ (kind : String) (ds : List Node),
      Node.VariableDeclaration kind ds ∈ plainProgram →
      ∀ (id : Node) (init : Option Node), Node.VariableDeclarator id init ∈ ds →
        id.name ≠ some "NS" := by
    intro kind ds hk id init hd
    simp [plainProgram, assignStatement] at hk
    obtain ⟨_, rfl⟩ := hk
    simp at hd
    obtain ⟨rfl, _⟩ := hd
    simp [Node.name]
  ⟨h, parseAST_no_namespace plainProgram "NS" h⟩

/-! ## The rewrite of `module` -/

theorem getSubstitution_of_plain (matched before after : List Char) :
    ∀ (n : Nat) (template : List Char), template.length ≤ n →
      hasReplacementPattern template = false →
      getSubstitution matched before after template = template := by
  intro n
  induction n with
  | zero =>
    intro template hlen _
    have : template = [] := List.length_eq_zero.1 (by omega)
    subst this
    rfl
  | succ n ih =>
    intro template hlen hno
    match template, hlen, hno with
    | [], _, _ => rfl
    | [c], _, _ => rfl
    | c :: d :: rest, hlen, hno =>
      simp only [hasReplacementPattern, List.head?_cons, Bool.or_eq_false_iff] at hno
      have hrest : getSubstitution matched before after (d :: rest) = d :: rest :=
        ih (d :: rest) (by simpa using hlen) (by simpa [hasReplacementPattern] using hno.2)
      have h1 := hno.1
      simp only [Bool.and_eq_false_iff, Bool.or_eq_false_iff, beq_eq_false_iff_ne, ne_eq,
        Option.some.injEq] at h1
      by_cases hc : c = '$'
      · rcases h1 with h1 | h1
        · exact absurd hc h1
        · simp [getSubstitution, h1.1.1.1, h1.1.1.2, h1.1.2, h1.2, hrest]
      · simp [getSubstitution, hc, hrest]

theorem jsReplace_module (property ns : String)
    (hns : hasReplacementPattern ns.toList = false) :
    jsReplace ("module" ++ "." ++ property) "module" ns = ns ++ "." ++ property := by
  unfold jsReplace
  have h1 : ("module" ++ "." ++ property).toList =
      'm' :: 'o' :: 'd' :: 'u' :: 'l' :: 'e' :: '.' :: property.toList := by
    simp
  have h2 : "module".toList = ['m', 'o', 'd', 'u', 'l', 'e'] := rfl
  rw [h1, h2]
  simp only [replaceFrom, List.isPrefixOf, List.length_cons, List.length_nil, List.drop,
    List.nil_append]
  rw [getSubstitution_of_plain _ _ _ _ _ (Nat.le_refl _) hns]
  apply String.ext
  simp

theorem mem_namespaceDeclarators {body : List Node} {ns kind : String} {ds : List Node}
    {init : Option Node} (hdecl : Node.VariableDeclaration kind ds ∈ body)
    (hd : Node.VariableDeclarator (Node.Identifier ns) init ∈ ds) :
    Node.VariableDeclarator (Node.Identifier ns) init ∈ namespaceDeclarators body ns := by
  unfold namespaceDeclarators topLevelDeclarators
  rw [List.mem_filter]
  refine ⟨List.mem_flatMap.2 ⟨Node.VariableDeclaration kind ds, ?_, ?_⟩, ?_⟩
  · exact List.mem_filter.2 ⟨hdecl, rfl⟩
  · exact List.mem_filter.2 ⟨hd, rfl⟩
  · simp [Node.name]

/-- C7, as amended. For every namespace `NS` in which no `$` is followed by `$`, `&`, a
backtick or an apostrophe, and every property name `Foo`: if the factory called to initialise a top-level `NS` declarator has in its body the
top-level statement `module.Foo = <expr>`, spelled with the identifier `module` whatever
the factory's parameters are called, then `parseAST`'s declarations contain `NS.Foo`. -/
theorem parseAST_declares_module_property (body : List Node) (ns : String) (res : Parsed)
    (kind : String) (ds params factoryBody arguments : List Node) (property : String)
    (right : Node) (hns : hasReplacementPattern ns.toList = false)
    (hres : parseAST body ns = some res)
    (hdecl : Node.VariableDeclaration kind ds ∈ body)
    (hd : Node.VariableDeclarator (Node.Identifier ns)
      (some (Node.CallExpression (Node.FunctionExpression params factoryBody) arguments)) ∈ ds)
    (hstmt : assignStatement "module" property right ∈ factoryBody) :
    ns ++ "." ++ property ∈ res.declarations := by
  have hmem := mem_namespaceDeclarators hdecl hd
  unfold parseAST at hres
  cases hdeps : parseDependencies body ns with
  | none => simp [hdeps] at hres
  | some deps =>
    cases hdecls : parseDeclarations body ns with
    | none => simp [hdeps, hdecls] at hres
    | some decls =>
      simp only [hdeps, hdecls] at hres
      have hr : res = ⟨deps, decls⟩ := (Option.some.inj hres).symm
      subst hr
      unfold parseDeclarations at hdecls
      cases hc : mapThrowing initCallee (namespaceDeclarators body ns) with
      | none => simp [hc] at hdecls
      | some callees =>
        simp only [hc, Option.map_some'] at hdecls
        have hd2 := Option.some.inj hdecls
        obtain ⟨callee, hcallee, hinit⟩ := mapThrowing_mem hc hmem
        have hce : callee = Node.FunctionExpression params factoryBody :=
          (Option.some.inj hinit).symm
        subst hce
        show ns ++ "." ++ property ∈ decls
        rw [← hd2, ← jsReplace_module property ns hns]
        refine List.mem_map.2 ⟨"module" ++ "." ++ property, ?_, rfl⟩
        refine List.mem_map.2 ⟨assignStatement "module" property right, ?_, ?_⟩
        · refine List.mem_filter.2 ⟨List.mem_flatMap.2
            ⟨Node.FunctionExpression params factoryBody, ?_, ?_⟩, rfl⟩
          · exact List.mem_filter.2 ⟨hcallee, rfl⟩
          · exact List.mem_filter.2 ⟨hstmt, rfl⟩
        · simp [assignStatement, assignedName, deriveObjectName, jsString, Node.name]

/-- Witness of C7 as amended:
`var NS = (function (module) { module.Foo = <expr>; })(<expr>);`. -/
theorem parseAST_declares_module_property_witness :
    hasReplacementPattern "NS".toList = false ∧
      parseAST (moduleProgram "NS" "module") "NS" = some ⟨[], ["NS.Foo"]⟩ ∧
      "NS" ++ "." ++ "Foo" ∈ (Parsed.mk [] ["NS.Foo"]).declarations :=
  ⟨by decide, by decide,
    parseAST_declares_module_property (moduleProgram "NS" "module") "NS" ⟨[], ["NS.Foo"]⟩
      "var" _ [Node.Identifier "module"] [assignStatement "module" "Foo" Node.Other]
      [Node.Other] "Foo" Node.Other (by decide) (by decide)
      (List.mem_singleton.2 rfl) (List.mem_singleton.2 rfl) (List.mem_singleton.2 rfl)⟩

/-- Counterexample to C7 as stated. With the factory parameter called `m`, the statement
`m.Foo = <expr>` under the namespace `NS` yields the declaration `m.Foo`, not `NS.Foo`; and
under the namespace `$$` the statement `module.Foo = <expr>` yields `$.Foo`, not
`$$.Foo`. -/
theorem parseAST_module_parameter_counterexample :
    (parseAST (moduleProgram "NS" "m") "NS" = some ⟨[], ["m.Foo"]⟩ ∧
        "NS.Foo" ∉ ["m.Foo"]) ∧
      (parseAST (moduleProgram "$$" "module") "$$" = some ⟨[], ["$.Foo"]⟩ ∧
        "$$.Foo" ∉ ["$.Foo"]) := by
  decide

/-! ## The bundle -/

/-- C4, evaluated at the two-record list `[fileA, fileB]`: what `writeOutputFile` hands to
`fs.writeFile` is the array of the two contents, which is written with a comma between
them; that is not the concatenation `contents(a)` followed by `contents(b)`. -/
theorem writeOutputFile_pair :
    writeOutputFileData [fileA, fileB] = ["A;", "B;"] ∧
      writtenText [fileA, fileB] = "A;,B;" ∧
      writtenText [fileA, fileB] ≠ fileA.contents ++ fileB.contents := by
  decide

/-! ## Idempotence -/

theorem remainingFiles_not_prototype {files exportList : List SourceRecord}
    {r : SourceRecord} (h : r ∈ remainingFiles files exportList) :
    r.file ∉ objectPrototypeKeys := by
  unfold remainingFiles at h
  rw [List.mem_filter] at h
  intro hk
  have hc : objectPrototypeKeys.contains r.file = true := by simpa using hk
  have ht : keyByFileTruthy (exportList.map (fun o => o.file)) r.file = true := by
    unfold keyByFileTruthy
    split
    · rfl
    · exact hc
  simp [ht] at h

theorem buildList_file_not_prototype (files : List SourceRecord) :
    ∀ r ∈ buildList files, r.file ∉ objectPrototypeKeys := by
  intro r hr
  obtain ⟨i, hi⟩ := List.mem_iff_getElem?.1 hr
  exact remainingFiles_not_prototype (List.mem_of_find?_eq_some (find_at_position hi))

theorem remainingFiles_take {l : List SourceRecord}
    (hnodup : (l.map (fun o => o.file)).Nodup)
    (hfile : ∀ r ∈ l, r.file ∉ objectPrototypeKeys) (k : Nat) :
    remainingFiles l (l.take k) = l.drop k := by
  rw [remainingFiles_eq_filter hfile]
  have hsplit : l.filter (fun o => decide (o.file ∉ (l.take k).map (fun p => p.file))) =
      (l.take k ++ l.drop k).filter
        (fun o => decide (o.file ∉ (l.take k).map (fun p => p.file))) := by
    rw [List.take_append_drop]
  rw [hsplit, List.filter_append]
  have h1 : (l.take k).filter
      (fun o => decide (o.file ∉ (l.take k).map (fun p => p.file))) = [] := by
    rw [List.filter_eq_nil_iff]
    intro o ho
    have : o.file ∈ (l.take k).map (fun p => p.file) := List.mem_map.2 ⟨o, ho, rfl⟩
    intro h
    exact of_decide_eq_true h this
  have h2 : (l.drop k).filter
      (fun o => decide (o.file ∉ (l.take k).map (fun p => p.file))) = l.drop k := by
    rw [List.filter_eq_self]
    intro o ho
    have hd : ((l.take k).map (fun p => p.file) ++ (l.drop k).map (fun p => p.file)).Nodup := by
      rw [← List.map_append, List.take_append_drop]
      exact hnodup
    have hdis := (List.nodup_append.1 hd).2.2
    have hin : o.file ∈ (l.drop k).map (fun p => p.file) := List.mem_map.2 ⟨o, ho, rfl⟩
    have : o.file ∉ (l.take k).map (fun p => p.file) := fun hm => hdis hm hin
    exact decide_eq_true this
  rw [h1, h2, List.nil_append]

theorem attempt_take_buildList (files : List SourceRecord) {k : Nat}
    (hk : k < (buildList files).length) :
    attempt (buildList files) ((buildList files).take k) = (buildList files).take (k + 1) := by
  have hget : (buildList files)[k]? = some ((buildList files)[k]) :=
    List.getElem?_eq_getElem hk
  have hp : containsAll ((buildList files).take k) ((buildList files)[k]).dependencies
      = true := @List.find?_some _
    (fun (x : SourceRecord) => containsAll ((buildList files).take k) x.dependencies) _ _
    (find_at_position hget)
  have hn : ((buildList files).map (fun o => o.file)).Nodup := loop_nodup files _
  unfold attempt
  rw [remainingFiles_take hn (buildList_file_not_prototype files),
    List.drop_eq_getElem_cons hk, List.find?_cons, hp, List.take_succ, hget]
  rfl

theorem loop_buildList_eq_take (files : List SourceRecord) (k : Nat) :
    buildListLoop (buildList files) k [] = (buildList files).take k := by
  induction k with
  | zero => rfl
  | succ k ih =>
    rw [buildListLoop_succ_eq, ih]
    rcases Nat.lt_or_ge k (buildList files).length with hk | hk
    · exact attempt_take_buildList files hk
    · rw [List.take_of_length_le hk, List.take_of_length_le (by omega)]
      apply attempt_eq_self_of_remaining_nil
      have hn : ((buildList files).map (fun o => o.file)).Nodup := loop_nodup files _
      have := remainingFiles_take hn (buildList_file_not_prototype files)
        (buildList files).length
      rw [List.take_length, List.drop_length] at this
      exact this

/-- C15. Resolution is idempotent: for every input list, feeding the output of `buildList`
back into `buildList` returns it unchanged. -/
theorem buildList_idempotent (files : List SourceRecord) :
    buildList (buildList files) = buildList files := by
  have h := loop_buildList_eq_take files ((buildList files).length * 2)
  rw [List.take_of_length_le (by omega)] at h
  exact h

/-! ## The attempt budget -/

theorem loop_eq_buildList_of_le (files : List SourceRecord) {k : Nat}
    (hk : files.length ≤ k) : buildListLoop files k [] = buildList files := by
  rw [loop_eq_take, List.take_of_length_le]
  exact (loop_length_le_files files _).trans hk

theorem preciseRun_from_take (files : List SourceRecord) (j : Nat) :
    PreciseRun files ((buildList files).take ((buildList files).length - j))
      (buildList files) := by
  induction j with
  | zero =>
    rw [Nat.sub_zero, List.take_length]
    exact PreciseRun.halt _ (find_none_buildList files)
  | succ j ih =>
    rcases Nat.lt_or_ge j (buildList files).length with hj | hj
    · have hi : (buildList files).length - (j + 1) < (buildList files).length := by omega
      have hget := List.getElem?_eq_getElem hi
      refine PreciseRun.place _ _ _ (find_at_position hget) ?_
      have ht : (buildList files).take ((buildList files).length - (j + 1)) ++
          [(buildList files)[(buildList files).length - (j + 1)]] =
          (buildList files).take ((buildList files).length - j) := by
        rw [show (buildList files).length - j = (buildList files).length - (j + 1) + 1 by
          omega, List.take_succ, hget]
        rfl
      rw [ht]
      exact ih
    · rw [show (buildList files).length - (j + 1) = (buildList files).length - j by omega]
      exact ih

theorem preciseRun_buildList (files : List SourceRecord) :
    PreciseRun files [] (buildList files) := by
  have h := preciseRun_from_take files (buildList files).length
  rw [Nat.sub_self, List.take_zero] at h
  exact h

theorem preciseRun_unique {files e o1 o2 : List SourceRecord}
    (h1 : PreciseRun files e o1) (h2 : PreciseRun files e o2) : o1 = o2 := by
  induction h1 with
  | halt e hnone =>
    cases h2 with
    | halt _ _ => rfl
    | place _ r _ hsome _ => rw [hnone] at hsome; exact absurd hsome (by simp)
  | place e r o hsome _ ih =>
    cases h2 with
    | halt _ hnone => rw [hnone] at hsome; exact absurd hsome (by simp)
    | place _ r2 _ hsome2 hrun =>
      rw [hsome] at hsome2
      have : r = r2 := Option.some.inj hsome2
      subst this
      exact ih hrun

theorem not_all_declared_of_missing {files : List SourceRecord} {r : SourceRecord}
    (hr : r ∈ files) (hfile : r.file ∉ objectPrototypeKeys) (hdep : "" ∉ r.dependencies)
    (hmiss : r.file ∉ (buildList files).map (fun o => o.file)) :
    ¬ ∀ d ∈ r.dependencies, d ∈ (buildList files).flatMap (fun o => o.declarations) := by
  intro hall
  have hrem : r ∈ remainingFiles files (buildList files) := by
    unfold remainingFiles
    rw [List.mem_filter]
    refine ⟨hr, ?_⟩
    have : keyByFileTruthy ((buildList files).map (fun o => o.file)) r.file = false := by
      rw [Bool.eq_false_iff]
      exact fun hc => hmiss ((keyByFileTruthy_iff hfile).1 hc)
    simp [this]
  have hnone := List.find?_eq_none.1 (find_none_buildList files) r hrem
  apply hnone
  rw [containsAll_iff]
  intro d hd
  exact keyByIdentityTruthy_of_mem (fun h => hdep (h ▸ hd)) (hall d hd)

/-- C12, as amended. The attempt budget never cuts a resolution short: for every input
list, the loop run with any budget of at least `|files|` attempts returns the list
`buildList` returns with its `2 × |files|`; that list is the one the loop with the precise
halting rule returns; and no input record whose file path is no property name of
`Object.prototype`, has no empty dependency name and is missing from the output has all of
its dependencies declared by the output records. -/
theorem buildList_budget (files : List SourceRecord) :
    (∀ k : Nat, files.length ≤ k → buildListLoop files k [] = buildList files) ∧
      (PreciseRun files [] (buildList files) ∧
        ∀ result : List SourceRecord, PreciseRun files [] result → result = buildList files) ∧
      ∀ r ∈ files, r.file ∉ objectPrototypeKeys → "" ∉ r.dependencies →
        r.file ∉ (buildList files).map (fun o => o.file) →
        ¬ ∀ d ∈ r.dependencies, d ∈ (buildList files).flatMap (fun o => o.declarations) :=
  ⟨fun _ hk => loop_eq_buildList_of_le files hk,
    ⟨preciseRun_buildList files, fun _ h => preciseRun_unique h (preciseRun_buildList files)⟩,
    fun _ hr hfile hdep hmiss => not_all_declared_of_missing hr hfile hdep hmiss⟩

/-- Counterexample to C12 as stated. When `buildList [fileK]` returns, the path of `fileK`
is missing from the output although all of its dependencies (it has none) are declared;
and when `buildList [fileE, fileF]` returns, the path of `fileF` is missing although its
dependency, the empty name, is declared by the output record `fileE`. -/
theorem buildList_budget_counterexample :
    (fileK ∈ [fileK] ∧ fileK.file ∉ (buildList [fileK]).map (fun o => o.file) ∧
        ∀ d ∈ fileK.dependencies,
          d ∈ (buildList [fileK]).flatMap (fun o => o.declarations)) ∧
      (fileF ∈ [fileE, fileF] ∧
        fileF.file ∉ (buildList [fileE, fileF]).map (fun o => o.file) ∧
        ∀ d ∈ fileF.dependencies,
          d ∈ (buildList [fileE, fileF]).flatMap (fun o => o.declarations)) := by
  decide

/-! ## The end-to-end scenario -/

/-- C11, as amended. End-to-end order scenario: for every pair of records `a` and `b` with
distinct file paths, neither of them a property name of `Object.prototype`, where `a` has
no dependencies and declares `NS.Foo` and `b` depends on `NS.Foo` alone, `buildList`
returns `[a, b]` for both input orders. -/
theorem buildList_end_to_end (a b : SourceRecord) (hne : a.file ≠ b.file)
    (ha : a.file ∉ objectPrototypeKeys) (hb : b.file ∉ objectPrototypeKeys)
    (hadep : a.dependencies = []) (hadecl : "NS.Foo" ∈ a.declarations)
    (hbdep : b.dependencies = ["NS.Foo"]) :
    buildList [a, b] = [a, b] ∧ buildList [b, a] = [a, b] := by
  have hne2 : b.file ≠ a.file := fun h => hne h.symm
  have hfile1 : ∀ r ∈ [a, b], r.file ∉ objectPrototypeKeys := by
    intro r hr
    rcases List.mem_pair.1 hr with rfl | rfl
    · exact ha
    · exact hb
  have hfile2 : ∀ r ∈ [b, a], r.file ∉ objectPrototypeKeys := by
    intro r hr
    rcases List.mem_pair.1 hr with rfl | rfl
    · exact hb
    · exact ha
  have hca : ∀ e : List SourceRecord, containsAll e a.dependencies = true := by
    intro e; rw [hadep]; rfl
  have hcb0 : containsAll [] b.dependencies = false := by
    rw [Bool.eq_false_iff, hbdep]
    intro h
    obtain ⟨s, hs, _⟩ := containsAll_declared h (List.mem_singleton.2 rfl)
      (show "NS.Foo" ∉ objectPrototypeKeys by decide)
    simp at hs
  have hcb1 : containsAll [a] b.dependencies = true := by
    rw [containsAll_iff, hbdep]
    intro d hd
    rw [List.mem_singleton] at hd
    subst hd
    exact keyByIdentityTruthy_of_mem (by decide) (by simpa using hadecl)
  have step : ∀ files : List SourceRecord, (∀ r ∈ files, r.file ∉ objectPrototypeKeys) →
      (files = [a, b] ∨ files = [b, a]) → buildList files = [a, b] := by
    intro files hfile hfiles
    have hlen : files.length * 2 = 4 := by rcases hfiles with rfl | rfl <;> rfl
    unfold buildList
    rw [hlen, buildListLoop_eq_iterate]
    have h1 : attempt files [] = [a] := by
      unfold attempt
      rw [remainingFiles_eq_filter hfile]
      rcases hfiles with rfl | rfl
      · simp [hca]
      · simp [hca, hcb0]
    have h2 : attempt files [a] = [a, b] := by
      unfold attempt
      rw [remainingFiles_eq_filter hfile]
      rcases hfiles with rfl | rfl
      · simp [hne2, hcb1]
      · simp [hne2, hcb1]
    have h3 : attempt files [a, b] = [a, b] := by
      apply attempt_eq_self_of_remaining_nil
      rw [remainingFiles_eq_filter hfile]
      rcases hfiles with rfl | rfl <;> simp
    simp only [Function.iterate_succ, Function.iterate_zero, Function.comp_apply, id_eq,
      h1, h2, h3]
  exact ⟨step [a, b] hfile1 (Or.inl rfl), step [b, a] hfile2 (Or.inr rfl)⟩

/-- Witness of C11 as amended: the records `fileA` and `fileB`. -/
theorem buildList_end_to_end_witness :
    fileA.file ≠ fileB.file ∧ fileA.file ∉ objectPrototypeKeys ∧
      fileB.file ∉ objectPrototypeKeys ∧ fileA.dependencies = [] ∧
      "NS.Foo" ∈ fileA.declarations ∧ fileB.dependencies = ["NS.Foo"] ∧
      buildList [fileA, fileB] = [fileA, fileB] ∧ buildList [fileB, fileA] = [fileA, fileB] :=
  ⟨by decide, by decide, by decide, by decide, by decide, by decide,
    buildList_end_to_end fileA fileB (by decide) (by decide) (by decide) (by decide)
      (by decide) (by decide)⟩

/-- Counterexample to C11 as stated. The records `fileAK` and `fileB` have distinct file
paths, `fileAK` has no dependencies and declares `NS.Foo`, `fileB` depends on `NS.Foo` and
declares `NS.Bar`; yet `buildList` returns the empty list for both input orders. -/
theorem buildList_end_to_end_counterexample :
    fileAK.file ≠ fileB.file ∧ fileAK.dependencies = [] ∧
      fileAK.declarations = ["NS.Foo"] ∧ fileB.dependencies = ["NS.Foo"] ∧
      fileB.declarations = ["NS.Bar"] ∧
      buildList [fileAK, fileB] = [] ∧ buildList [fileB, fileAK] = [] := by
  decide

/-! ## Initialisers without arguments -/

theorem mapThrowing_eq_none {β : Type} {f : Node → Option β} {l : List Node} {a : Node}
    (ha : a ∈ l) (hf : f a = none) : mapThrowing f l = none := by
  induction l with
  | nil => simp at ha
  | cons x l ih =>
    unfold mapThrowing
    rcases List.mem_cons.1 ha with rfl | ha
    · simp [hf]
    · cases f x with
      | none => rfl
      | some b => simp [ih ha]

theorem memberArguments_eq_none {id : Node} {init : Option Node}
    (h : hasArguments init = false) :
    memberArguments (Node.VariableDeclarator id init) = none := by
  unfold hasArguments at h
  split at h
  · exact absurd h (by simp)
  · exact absurd h (by simp)
  · next h1 h2 =>
    unfold memberArguments
    split
    · next heq =>
      cases heq
      exact absurd rfl (h1 _ _)
    · next heq =>
      cases heq
      exact absurd rfl (h2 _ _)
    · rfl

/-- C13, on the code. For every program with a top-level declarator named by the namespace
whose initialiser is absent, or is a node without `arguments` (anything but a call or a
`new` expression), `parseAST` throws: it returns no result at all. -/
theorem parseAST_throws_without_arguments (body : List Node) (ns kind : String)
    (ds : List Node) (init : Option Node)
    (hdecl : Node.VariableDeclaration kind ds ∈ body)
    (hd : Node.VariableDeclarator (Node.Identifier ns) init ∈ ds)
    (hinit : hasArguments init = false) : parseAST body ns = none := by
  have hmem := mem_namespaceDeclarators hdecl hd
  have hnone : parseDependencies body ns = none := by
    unfold parseDependencies
    rw [mapThrowing_eq_none hmem (memberArguments_eq_none hinit)]
    rfl
  unfold parseAST
  rw [hnone]

/-- The failing inputs of C13: `parseAST` throws on `var NS;` and on `var NS = {};`. -/
theorem parseAST_throws_without_arguments_witness :
    (hasArguments none = false ∧ parseAST bareProgram "NS" = none) ∧
      (hasArguments (some Node.Other) = false ∧ parseAST objectProgram "NS" = none) :=
  ⟨⟨rfl, parseAST_throws_without_arguments bareProgram "NS" "var" _ none
      (List.mem_singleton.2 rfl) (List.mem_singleton.2 rfl) rfl⟩,
    ⟨rfl, parseAST_throws_without_arguments objectProgram "NS" "var" _ (some Node.Other)
      (List.mem_singleton.2 rfl) (List.mem_singleton.2 rfl) rfl⟩⟩

/-! ## The form of the declarations -/

theorem mem_replaceFrom {c : Char} {pattern : List Char} (template : List Char)
    (hc : c ∉ pattern) (hp : pattern ≠ []) :
    ∀ (s before : List Char), c ∈ before ∨ c ∈ s →
      c ∈ replaceFrom pattern template before s := by
  intro s
  induction s with
  | nil =>
    intro before h
    unfold replaceFrom
    rw [if_neg hp]
    rcases h with h | h
    · exact h
    · simp at h
  | cons x xs ih =>
    intro before h
    unfold replaceFrom
    split
    · next hpre =>
      rcases h with h | h
      · exact List.mem_append_left _ (List.mem_append_left _ h)
      · obtain ⟨t, ht⟩ := List.isPrefixOf_iff_prefix.1 hpre
        rw [← ht, List.drop_left]
        rw [← ht] at h
        rcases List.mem_append.1 h with h | h
        · exact absurd h hc
        · exact List.mem_append_right _ h
    · apply ih
      rcases h with h | h
      · exact Or.inl (List.mem_append_left _ h)
      · rcases List.mem_cons.1 h with h | h
        · exact Or.inl (List.mem_append_right _ (by simp [h]))
        · exact Or.inr h

theorem isDotted_jsReplace {s : String} (h : isDotted s) (ns : String) :
    isDotted (jsReplace s "module" ns) := by
  unfold isDotted jsReplace
  exact mem_replaceFrom ns.toList (by decide) (by decide) s.toList [] (Or.inr h)

theorem isDotted_assignedName {stmt : Node} (h : isMemberAssignment stmt = true) :
    isDotted (assignedName stmt) ∧
      ∃ left : Node, left.isMemberExpression = true ∧
        assignedName stmt = jsString (deriveObjectName left) := by
  unfold isMemberAssignment at h
  split at h
  · next op left right =>
    refine ⟨?_, left, h, rfl⟩
    cases left with
    | MemberExpression object property computed =>
      simp [assignedName, deriveObjectName, jsString, isDotted]
    | _ => simp [Node.isMemberExpression] at h
  · exact absurd h (by simp)

theorem intercalate_go_append (p acc s : String) (l : List String) :
    String.intercalate.go (p ++ acc) s l = p ++ String.intercalate.go acc s l := by
  induction l generalizing acc with
  | nil => rfl
  | cons a l ih =>
    simp only [String.intercalate.go]
    rw [String.append_assoc, String.append_assoc, ih, String.append_assoc]

theorem intercalate_cons_cons (a b : String) (l : List String) :
    ".".intercalate (a :: b :: l) = a ++ "." ++ ".".intercalate (b :: l) := by
  show String.intercalate.go a "." (b :: l) = a ++ "." ++ String.intercalate.go b "." l
  simp only [String.intercalate.go]
  rw [String.append_assoc, intercalate_go_append, String.append_assoc,
    intercalate_go_append]

theorem jsReplace_module_chain (ns : String) (hns : hasReplacementPattern ns.toList = false)
    (ids : List String) (hm : (memberChain "module" ids).isMemberExpression = true) :
    jsReplace (jsString (deriveObjectName (memberChain "module" ids))) "module" ns =
      ".".intercalate (ns :: ids) := by
  cases ids with
  | nil => simp [memberChain, Node.isMemberExpression] at hm
  | cons id rest =>
    have h1 : deriveObjectName (memberChain "module" (id :: rest)) =
        some (".".intercalate ("module" :: id :: rest)) :=
      deriveObjectName_foldl (id :: rest) (Node.Identifier "module") "module" rfl
    rw [h1, jsString, intercalate_cons_cons, jsReplace_module _ _ hns,
      ← intercalate_cons_cons]

theorem mem_parseDeclarations {body : List Node} {ns : String} {decls : List String}
    (h : parseDeclarations body ns = some decls) {d : String} (hd : d ∈ decls) :
    ∃ stmt : Node, isMemberAssignment stmt = true ∧
      d = jsReplace (assignedName stmt) "module" ns := by
  unfold parseDeclarations at h
  cases hc : mapThrowing initCallee (namespaceDeclarators body ns) with
  | none => simp [hc] at h
  | some callees =>
    simp only [hc, Option.map_some'] at h
    rw [← Option.some.inj h] at hd
    obtain ⟨name, hname, rfl⟩ := List.mem_map.1 hd
    obtain ⟨stmt, hstmt, rfl⟩ := List.mem_map.1 hname
    exact ⟨stmt, (List.mem_filter.1 hstmt).2, rfl⟩

theorem declarations_of_parseAST {body : List Node} {ns : String} {res : Parsed}
    (h : parseAST body ns = some res) : parseDeclarations body ns = some res.declarations := by
  unfold parseAST at h
  cases hdeps : parseDependencies body ns with
  | none => simp [hdeps] at h
  | some deps =>
    cases hdecls : parseDeclarations body ns with
    | none => simp [hdeps, hdecls] at h
    | some decls =>
      simp only [hdeps, hdecls] at h
      rw [← Option.some.inj h]

theorem mem_declarations_of_assignment {body : List Node} {ns : String} {res : Parsed}
    (hres : parseAST body ns = some res) {kind : String}
    {ds params factoryBody arguments : List Node}
    (hdecl : Node.VariableDeclaration kind ds ∈ body)
    (hd : Node.VariableDeclarator (Node.Identifier ns)
      (some (Node.CallExpression (Node.FunctionExpression params factoryBody) arguments)) ∈ ds)
    (object property : String) (right : Node)
    (hstmt : assignStatement object property right ∈ factoryBody) :
    jsReplace (object ++ "." ++ property) "module" ns ∈ res.declarations := by
  have hmem := mem_namespaceDeclarators hdecl hd
  have hdecls := declarations_of_parseAST hres
  unfold parseDeclarations at hdecls
  cases hc : mapThrowing initCallee (namespaceDeclarators body ns) with
  | none => simp [hc] at hdecls
  | some callees =>
    simp only [hc, Option.map_some'] at hdecls
    obtain ⟨callee, hcallee, hinit⟩ := mapThrowing_mem hc hmem
    have hce : callee = Node.FunctionExpression params factoryBody :=
      (Option.some.inj hinit).symm
    subst hce
    rw [← Option.some.inj hdecls]
    refine List.mem_map.2 ⟨object ++ "." ++ property, ?_, rfl⟩
    refine List.mem_map.2 ⟨assignStatement object property right, ?_, ?_⟩
    · refine List.mem_filter.2 ⟨List.mem_flatMap.2
        ⟨Node.FunctionExpression params factoryBody, ?_, ?_⟩, rfl⟩
      · exact List.mem_filter.2 ⟨hcallee, rfl⟩
      · exact List.mem_filter.2 ⟨hstmt, rfl⟩
    · simp [assignStatement, assignedName, deriveObjectName, jsString, Node.name]

theorem mapThrowing_mem_result {β : Type} {f : Node → Option β} {l : List Node}
    {bs : List β} (h : mapThrowing f l = some bs) {b : β} (hb : b ∈ bs) :
    ∃ a ∈ l, f a = some b := by
  induction l generalizing bs with
  | nil =>
    have hnil : bs = [] := (Option.some.inj h).symm
    rw [hnil] at hb
    simp at hb
  | cons x l ih =>
    unfold mapThrowing at h
    cases hx : f x with
    | none => simp [hx] at h
    | some b0 =>
      simp only [hx] at h
      cases hl : mapThrowing f l with
      | none => simp [hl] at h
      | some bs0 =>
        simp only [hl, Option.map_some'] at h
        have hbs : b0 :: bs0 = bs := Option.some.inj h
        subst hbs
        rcases List.mem_cons.1 hb with rfl | hb
        · exact ⟨x, List.mem_cons_self _ _, hx⟩
        · obtain ⟨a, ha, hf⟩ := ih hl hb
          exact ⟨a, List.mem_cons_of_mem _ ha, hf⟩

theorem exists_of_mem_namespaceDeclarators {body : List Node} {ns : String} {node : Node}
    (h : node ∈ namespaceDeclarators body ns) :
    ∃ (kind : String) (ds : List Node) (id : Node) (init : Option Node),
      Node.VariableDeclaration kind ds ∈ body ∧ Node.VariableDeclarator id init ∈ ds ∧
      node = Node.VariableDeclarator id init ∧ id.name = some ns := by
  unfold namespaceDeclarators at h
  obtain ⟨htop, hname⟩ := List.mem_filter.1 h
  unfold topLevelDeclarators at htop
  obtain ⟨stmt, hstmt, hmem⟩ := List.mem_flatMap.1 htop
  have hbody : stmt ∈ body := (List.mem_filter.1 hstmt).1
  cases stmt with
  | VariableDeclaration kind ds =>
    have hds : node ∈ ds := (List.mem_filter.1 hmem).1
    cases node with
    | VariableDeclarator id init =>
      exact ⟨kind, ds, id, init, hbody, hds, rfl, by simpa using hname⟩
    | _ => simp at hname
  | _ => simp at hmem

theorem initCallee_shape {id : Node} {init : Option Node} {callee : Node}
    (h : initCallee (Node.VariableDeclarator id init) = some callee) :
    ∃ arguments : List Node,
      init = some (Node.CallExpression callee arguments) ∨
        init = some (Node.NewExpression callee arguments) := by
  unfold initCallee at h
  split at h
  · next heq =>
    cases heq
    cases Option.some.inj h
    exact ⟨_, Or.inl rfl⟩
  · next heq =>
    cases heq
    cases Option.some.inj h
    exact ⟨_, Or.inr rfl⟩
  · exact absurd h (by simp)

theorem target_of_declaration {body : List Node} {ns : String} {decls : List String}
    (h : parseDeclarations body ns = some decls) {d : String} (hd : d ∈ decls) :
    ∃ left : Node, IsFactoryAssignmentTarget body ns left ∧
      left.isMemberExpression = true ∧
      d = jsReplace (jsString (deriveObjectName left)) "module" ns := by
  unfold parseDeclarations at h
  cases hc : mapThrowing initCallee (namespaceDeclarators body ns) with
  | none => simp [hc] at h
  | some callees =>
    simp only [hc, Option.map_some'] at h
    rw [← Option.some.inj h] at hd
    obtain ⟨name, hname, rfl⟩ := List.mem_map.1 hd
    obtain ⟨stmt, hstmt, rfl⟩ := List.mem_map.1 hname
    obtain ⟨hstmt1, hassign⟩ := List.mem_filter.1 hstmt
    obtain ⟨callee, hcallee, hin⟩ := List.mem_flatMap.1 hstmt1
    obtain ⟨hcallee1, hfn⟩ := List.mem_filter.1 hcallee
    obtain ⟨node, hnode, hinit⟩ := mapThrowing_mem_result hc hcallee1
    obtain ⟨kind, ds, id, init, hbody, hds, rfl, hid⟩ :=
      exists_of_mem_namespaceDeclarators hnode
    obtain ⟨arguments, hshape⟩ := initCallee_shape hinit
    cases callee with
    | FunctionExpression params factoryBody =>
      have hfb : stmt ∈ factoryBody := (List.mem_filter.1 hin).1
      unfold isMemberAssignment at hassign
      split at hassign
      · next operator left right =>
        exact ⟨left, ⟨kind, ds, id, init, params, factoryBody, arguments, operator, right,
          hbody, hds, hid, hshape, hfb⟩, hassign, rfl⟩
      · exact absurd hassign (by simp)
    | _ => simp [Node.isFunctionExpression] at hfn

/-- C14, as amended. For every namespace `NS` and every program on which `parseAST`
returns: each string in its declarations is a dotted name, and it is the dotted name of the
left-hand side of a top-level member assignment in the body of a factory called to
initialise a top-level `NS` declarator of the program, with the first occurrence of the
text `module` replaced by the namespace; it has the form `NS.<property>...` when that
left-hand side is the chain `module.<property>...` (and `NS` has no `$` pattern). An
assignment in the factory body whose left-hand side is rooted elsewhere is not left out:
`<object>.<property> = <expr>` produces the declaration `<object>.<property>`, rewritten
the same way. -/
theorem parseAST_declarations_form (body : List Node) (ns : String) (res : Parsed)
    (hres : parseAST body ns = some res) :
    (∀ d ∈ res.declarations, isDotted d ∧
        ∃ left : Node, IsFactoryAssignmentTarget body ns left ∧
          left.isMemberExpression = true ∧
          d = jsReplace (jsString (deriveObjectName left)) "module" ns ∧
          (hasReplacementPattern ns.toList = false →
            ∀ ids : List String, left = memberChain "module" ids →
              d = ".".intercalate (ns :: ids))) ∧
      ∀ (kind : String) (ds params factoryBody arguments : List Node)
        (object property : String) (right : Node),
        Node.VariableDeclaration kind ds ∈ body →
        Node.VariableDeclarator (Node.Identifier ns)
          (some (Node.CallExpression (Node.FunctionExpression params factoryBody)
            arguments)) ∈ ds →
        assignStatement object property right ∈ factoryBody →
        jsReplace (object ++ "." ++ property) "module" ns ∈ res.declarations := by
  refine ⟨fun d hd => ?_, fun kind ds params factoryBody arguments object property right
    hdecl hdr hstmt => mem_declarations_of_assignment hres hdecl hdr object property right
      hstmt⟩
  obtain ⟨left, htarget, hleft, hname⟩ :=
    target_of_declaration (declarations_of_parseAST hres) hd
  have hdot : isDotted (jsString (deriveObjectName left)) := by
    cases left with
    | MemberExpression object property computed =>
      simp [deriveObjectName, jsString, isDotted]
    | _ => simp [Node.isMemberExpression] at hleft
  refine ⟨hname ▸ isDotted_jsReplace hdot ns, left, htarget, hleft, hname, ?_⟩
  intro hns ids hids
  rw [hname, hids]
  exact jsReplace_module_chain ns hns ids (hids ▸ hleft)

/-- Witness of C14 as amended: the program
`var NS = (function (module) { window.x = <expr>; module.Foo = <expr>; })(<expr>);`, whose
declarations are `window.x` and `NS.Foo`. -/
theorem parseAST_declarations_form_witness :
    parseAST windowProgram "NS" = some ⟨[], ["window.x", "NS.Foo"]⟩ ∧
      ((∀ d ∈ (Parsed.mk [] ["window.x", "NS.Foo"]).declarations, isDotted d ∧
          ∃ left : Node, IsFactoryAssignmentTarget windowProgram "NS" left ∧
            left.isMemberExpression = true ∧
            d = jsReplace (jsString (deriveObjectName left)) "module" "NS" ∧
            (hasReplacementPattern "NS".toList = false →
              ∀ ids : List String, left = memberChain "module" ids →
                d = ".".intercalate ("NS" :: ids))) ∧
        ∀ (kind : String) (ds params factoryBody arguments : List Node)
          (object property : String) (right : Node),
          Node.VariableDeclaration kind ds ∈ windowProgram →
          Node.VariableDeclarator (Node.Identifier "NS")
            (some (Node.CallExpression (Node.FunctionExpression params factoryBody)
              arguments)) ∈ ds →
          assignStatement object property right ∈ factoryBody →
          jsReplace (object ++ "." ++ property) "module" "NS" ∈
            (Parsed.mk [] ["window.x", "NS.Foo"]).declarations) :=
  ⟨by decide,
    parseAST_declarations_form windowProgram "NS" ⟨[], ["window.x", "NS.Foo"]⟩ (by decide)⟩

/-- The left-hand sides of `IsFactoryAssignmentTarget` are those of the program only: no
assignment target of `windowProgram` rewrites to the name `bogus.name`. -/
theorem windowProgram_no_unrelated_target :
    ¬ ∃ left : Node, IsFactoryAssignmentTarget windowProgram "NS" left ∧
      left.isMemberExpression = true ∧
      "bogus.name" = jsReplace (jsString (deriveObjectName left)) "module" "NS" := by
  rintro ⟨left, ⟨kind, ds, id, init, params, fb, args, op, right, hb, hd, hid, hinit, hst⟩,
    hm, heq⟩
  simp [windowProgram] at hb
  obtain ⟨_, rfl⟩ := hb
  simp at hd
  obtain ⟨rfl, rfl⟩ := hd
  rcases hinit with h | h
  · simp at h
    obtain ⟨⟨_, rfl⟩, _⟩ := h
    simp [assignStatement] at hst
    rcases hst with ⟨_, rfl, _⟩ | ⟨_, rfl, _⟩
    · revert heq; decide
    · revert heq; decide
  · simp at h

/-- Counterexample to C14 as stated. In the factory body of `windowProgram` the assignment
`window.x = <expr>` is not rooted at the module parameter, yet `parseAST` lists the
declaration `window.x`, whose first segment is not the namespace `NS`. -/
theorem parseAST_declarations_form_counterexample :
    parseAST windowProgram "NS" = some ⟨[], ["window.x", "NS.Foo"]⟩ ∧
      "window.x" ∈ (Parsed.mk [] ["window.x", "NS.Foo"]).declarations ∧
      ¬ ("NS.".toList <+: "window.x".toList) := by
  decide

end AmpOptimizer
